import Mathlib

/-!
# Modal resonator bank (`src/modal.cpp`)

Shallow embedding of the DSP core of the Tonerig modal module: the single
resonator `Modal` and the per-frame orchestration `Tonerig_modal::process`.

Numbers are taken from an arbitrary linearly ordered field `α` (exact
arithmetic): instantiate with `ℚ` to evaluate, with `ℝ` for the analytic
statements.  Rounding of `float` is not modelled.  A division whose
denominator is a run-time value goes through `fdiv`, which yields `none`
when the denominator is zero (the machine result there is an infinity or a
NaN, which is not a number of `α`), and a call that meets such a division has
the value `none`; a division by a non-zero literal is the field division.
`M_PI` and `std::pow` come from `<cmath>` and are taken as the parameters
`pi` and `pow`; `RAND_MAX` and the results of `rand()` come from `<stdlib.h>`
and are parameters of the constructor.  The statements that need the number
`π` or a real power instantiate them with `Real.pi` and `Real.rpow`.
-/

namespace ModalSynth

/-! ## Definitions -/

/-- The macro `pow2(x)`, that is `(x * x)`. -/
def pow2 {α : Type} [Mul α] (x : α) : α := x * x

/-- The macro `MODAL_OVERSAMPLING`. -/
def MODAL_OVERSAMPLING : Nat := 2

/-- The macro `NUM_MODES`. -/
abbrev NUM_MODES : Nat := 20

/-- Division by a run-time denominator: undefined at zero. -/
def fdiv {α : Type} [LinearOrderedField α] (a b : α) : Option α :=
  if b = 0 then none else some (a / b)

/-- The fields of `class Modal`, a single modal resonator. -/
structure Modal (α : Type) where
  /-- The current state. -/
  u : α
  /-- The previous state. -/
  up : α
  /-- Low-pass filtering state. -/
  lp : α
  /-- Inverse modal mass. -/
  m : α
  /-- Stiffness. -/
  omega0 : α
  /-- Damping. -/
  sigma0 : α
  /-- Sample period. -/
  k : α

namespace Modal

variable {α : Type} [LinearOrderedField α]

/-- The member initialisers of `class Modal`. -/
def init (pi : α) : Modal α :=
  { u := 0, up := 0, lp := 0, m := 2000, omega0 := 2 * pi * 440, sigma0 := 2.0,
    k := 1.0 / 44100 }

/-- The method `Modal::setSampleRate`: `k = 1.0 / (MODAL_OVERSAMPLING * fs)`. -/
def setSampleRate (s : Modal α) (fs : α) : Option (Modal α) :=
  (fdiv 1.0 ((MODAL_OVERSAMPLING : α) * fs)).map fun k1 => { s with k := k1 }

/-- One pass through the body of the `for` loop of `Modal::getNextSample`. -/
def subStep (f : α) (s : Modal α) : Option (Modal α) :=
  (fdiv 1.0 (1 + s.k * s.sigma0)).map fun r =>
    let un := r * (-pow2 s.k * pow2 s.omega0 * s.u + s.sigma0 * s.k * s.up + 2.0 * s.u - s.up
      + pow2 s.k * s.m * f)
    { s with up := s.u, u := un }

/-- The loop `for (int i = 0; i < n; i++)` around `subStep`. -/
def subSteps (f : α) : Nat → Modal α → Option (Modal α)
  | 0, s => some s
  | n + 1, s => (subStep f s).bind (subSteps f n)

/-- The method `Modal::getNextSample`: the new resonator and the returned sample. -/
def getNextSample (s : Modal α) (f : α) : Option (Modal α × α) :=
  (subSteps f MODAL_OVERSAMPLING s).map fun s1 =>
    let s2 := { s1 with lp := 0.9999 * s1.lp + 0.0001 * s1.u }
    (s2, (1 + s2.sigma0) * (s2.u - s2.lp))

/-- Successive calls of `getNextSample`, one per force of the list: the final resonator and
the samples returned, in call order. -/
def run : Modal α → List α → Option (Modal α × List α)
  | s, [] => some (s, [])
  | s, f :: fs => (getNextSample s f).bind fun r => (run r.1 fs).map fun q => (q.1, r.2 :: q.2)

/-- The update formula of the specification, section 4.1:
`un = (1 / (1 + k*σ0)) * (-k²ω0² * u + σ0*k*up + 2*u - up + k²*inverseMass*f)`. -/
def specUn (k sigma0 omega0 m u up f : α) : α :=
  (1 / (1 + k * sigma0)) *
    (-(k ^ 2 * omega0 ^ 2) * u + sigma0 * k * up + 2 * u - up + k ^ 2 * m * f)

/-- The result of `advance(f)` as the specification, section 4.1, words it: two sub-steps
of `specUn`, each followed by `up ← u; u ← un`, then `lp ← 0.9999*lp + 0.0001*u` and the
sample `(1 + σ0) * (u - lp)`. -/
def specAdvance (s : Modal α) (f : α) : Modal α × α :=
  let u1 := specUn s.k s.sigma0 s.omega0 s.m s.u s.up f
  let u2 := specUn s.k s.sigma0 s.omega0 s.m u1 s.u f
  let lp1 := 0.9999 * s.lp + 0.0001 * u2
  ({ u := u2, up := u1, lp := lp1, m := s.m, omega0 := s.omega0, sigma0 := s.sigma0,
     k := s.k },
   (1 + s.sigma0) * (u2 - lp1))

/-- The resonator after `n` calls of `advance` with zero force, as the specification words
`advance`. -/
def calls (s : Modal α) : Nat → Modal α
  | 0 => s
  | n + 1 => (specAdvance (calls s n) 0).1

/-- The combination `a * s1 + b * s2` of two resonator states `(u, up, lp)` that share their
parameters; the parameters are taken from `s1`. -/
def combine (a b : α) (s1 s2 : Modal α) : Modal α :=
  { s1 with
    u := a * s1.u + b * s2.u
    up := a * s1.up + b * s2.up
    lp := a * s1.lp + b * s2.lp }

/-- The discrete energy `E(u, up) = u² + up² - (2 - k²ω0²) * u * up` of a resonator. -/
def energy (s : Modal α) : α :=
  s.u ^ 2 + s.up ^ 2 - (2 - s.k ^ 2 * s.omega0 ^ 2) * s.u * s.up

end Modal

/-- The state of `struct Tonerig_modal`: the modes and the inharmonicity table. -/
structure Tonerig_modal (α : Type) where
  /-- The member `Modal modes[NUM_MODES]`. -/
  modes : Fin NUM_MODES → Modal α
  /-- The member `float inharmonicities[NUM_MODES]`. -/
  inharmonicities : Fin NUM_MODES → α

/-- What one call of `process` reads from the host: the sample rate of `args`, the three
knob values of `params` and the four voltages of `inputs`. -/
structure Frame (α : Type) where
  /-- The value `args.sampleRate`. -/
  sampleRate : α
  /-- The voltage of `inputs[IN_INPUT]`. -/
  IN_INPUT : α
  /-- The value of `params[FREQ_PARAM]`. -/
  FREQ_PARAM : α
  /-- The value of `params[DAMP_PARAM]`. -/
  DAMP_PARAM : α
  /-- The value of `params[INHARM_PARAM]`. -/
  INHARM_PARAM : α
  /-- The voltage of `inputs[VOCT_INPUT]`. -/
  VOCT_INPUT : α
  /-- The voltage of `inputs[DAMP_INPUT]`. -/
  DAMP_INPUT : α
  /-- The voltage of `inputs[INHARM_INPUT]`. -/
  INHARM_INPUT : α

section Bank

variable {α : Type} [LinearOrderedField α]

/-- The method `Tonerig_modal::map`, the generic linear mapping function. -/
def map (x oldMin oldMax newMin newMax : α) : Option α :=
  (fdiv (x - oldMin) (oldMax - oldMin)).map fun r => newMin + r * (newMax - newMin)

/-- The method `Tonerig_modal::pitchToFreq`; `pow` stands for `std::pow`. -/
def pitchToFreq (pow : α → α → α) (pitch : α) : α :=
  440 * pow 2 ((pitch - 69) / 12)

/-- The method `Tonerig_modal::constrain`. -/
def constrain (x min max : α) : α :=
  if x < min then min else if x > max then max else x

/-- The local `pitch` of `process` after the CV is applied and the value constrained. -/
def pitchCtl (a : Frame α) : α :=
  constrain (a.FREQ_PARAM + a.VOCT_INPUT / 12.0) (-48) 48

/-- The local `damp` of `process` after the CV is applied and the value constrained. -/
def dampCtl (a : Frame α) : Option α :=
  (map (a.DAMP_INPUT / 5.0) (-1) 1 (-10) 10).map fun d => constrain (a.DAMP_PARAM + d) 0 10

/-- The local `inharm` of `process` after the CV is applied and the value constrained. -/
def inharmCtl (a : Frame α) : α :=
  constrain (a.INHARM_PARAM + a.INHARM_INPUT / 5.0) 0 1

/-- The local `dampDec` of `process`: `fmax(map(damp, 5, 10.0, 1, 1.1), 1)`. -/
def dampDecOf (damp : α) : Option α :=
  (map damp 5 10.0 1 1.1).map fun d => max d 1

/-- The local `K` of `process`. -/
def K : α := 7643.022

/-- The local `f` of the mode loop: the frequency of mode `i`, where `c` is
`inharmonicities[i]`. -/
def modeFreq (inharm c : α) (i : Nat) (freq : α) : α :=
  (1 + inharm * c) * ((i + 1 : Nat) : α) * freq

/-- The block of the mode loop under the comment `Set parameters`, without the update of the
running `damp`. -/
def setParams (pi sr f damp : α) (m : Modal α) : Option (Modal α) :=
  (m.setSampleRate (2 * sr)).map fun m1 =>
    let m2 := { m1 with omega0 := 2 * pi * f }
    let m3 := { m2 with sigma0 := damp }
    { m3 with m := pow2 m3.omega0 / K }

/-- The mode as the specification, section 4.2 step 2c, configures it before it is advanced:
sample period `1 / (2 * (2 * sampleRate))`, `angularFrequency = 2π f`, `damping = currentDamp`
and `inverseMass = angularFrequency² / K`; the state `u`, `up`, `lp` is kept. -/
def configured (pi sr f damp : α) (m : Modal α) : Modal α :=
  { m with
    k := 1 / (2 * (2 * sr))
    omega0 := 2 * pi * f
    sigma0 := damp
    m := (2 * pi * f) ^ 2 / 7643.022 }

/-- What the mode loop does to a mode it evaluates: the block `Set parameters`, then
`getNextSample(x)` under the comment `Compute sample`. -/
def evalMode (pi sr x f damp : α) (m : Modal α) : Option (Modal α × α) :=
  (setParams pi sr f damp m).bind fun m1 => m1.getNextSample x

/-- The mode loop of `process` over the indices still to visit, from the running `damp`, the
running sum `y` and the modes; the `break` returns at once. -/
def modeLoop (pi sr x freq inharm dampDec : α) (inh : Fin NUM_MODES → α) :
    List (Fin NUM_MODES) → α → α → (Fin NUM_MODES → Modal α) →
      Option ((Fin NUM_MODES → Modal α) × α)
  | [], _, y, modes => some (modes, y)
  | i :: rest, damp, y, modes =>
    if modeFreq inharm (inh i) i freq ≥ 20000 then
      some (Function.update modes i { modes i with m := 0.0 }, y)
    else
      (evalMode pi sr x (modeFreq inharm (inh i) i freq) damp (modes i)).bind fun r =>
        modeLoop pi sr x freq inharm dampDec inh rest (damp * dampDec) (y + r.2)
          (Function.update modes i r.1)

/-- The sum of the samples `out j` of the modes `j < c`, taken in ascending order from 0;
it has a value when each of these samples has one. -/
def sumBelow (out : Fin NUM_MODES → Option α) (c : Nat) : Option α :=
  ((List.finRange NUM_MODES).take c).foldlM (fun y j => (out j).map fun r => y + r) 0

/-- The method `Tonerig_modal::process`: the new bank and the voltage written to
`outputs[OUT_OUTPUT]`. -/
def process (pi : α) (pow : α → α → α) (b : Tonerig_modal α) (a : Frame α) :
    Option (Tonerig_modal α × α) :=
  (dampCtl a).bind fun damp =>
    (dampDecOf damp).bind fun dampDec =>
      (modeLoop pi a.sampleRate a.IN_INPUT (pitchToFreq pow (60 + pitchCtl a)) (inharmCtl a)
          dampDec b.inharmonicities (List.finRange NUM_MODES) damp 0 b.modes).map fun r =>
        ({ b with modes := r.1 }, 5.0 * r.2)

/-- The constructor `Tonerig_modal::Tonerig_modal()`: every mode has the member initialisers
of `Modal`, element 0 of the table is 0 and element `i >= 1` is
`1 - 2 * (rand() / (float)RAND_MAX)`.  The macro `RAND_MAX` of `<stdlib.h>` is a parameter, a
non-zero constant there, and `rand n` is the result of the call number `n` of `rand()` after
`srand(42)`, counted from 0. -/
def Tonerig_modal.init (pi : α) (RAND_MAX : Nat) (rand : Nat → Nat) : Tonerig_modal α :=
  { modes := fun _ => Modal.init pi
    inharmonicities := fun i =>
      if i.val = 0 then 0 else 1 - 2 * ((rand (i.val - 1) : α) / (RAND_MAX : α)) }

/-- The frame of the end-to-end scenario of the specification, section 8: sample rate 44100,
pitch knob 9 (a fundamental of 440 Hz), inharmonicity knob 0, no control voltage, damping
knob `d` and excitation `x`. -/
def scenarioFrame (d x : α) : Frame α :=
  { sampleRate := 44100, IN_INPUT := x, FREQ_PARAM := 9, DAMP_PARAM := d, INHARM_PARAM := 0,
    VOCT_INPUT := 0, DAMP_INPUT := 0, INHARM_INPUT := 0 }

/-- The contribution of mode `i` to frame 0 of the end-to-end scenario, as claim C11 words it:
`0.9999 * (3 - k²w²) * k²w² / K` with `k = 1/(4*44100)`, `w = 2*pi*440*(i+1)` and
`K = 7643.022`. -/
def frame0Contribution (pi : α) (i : Nat) : α :=
  0.9999 * (3 - (1 / (4 * 44100)) ^ 2 * (2 * pi * 440 * ((i : α) + 1)) ^ 2) *
    ((1 / (4 * 44100)) ^ 2 * (2 * pi * 440 * ((i : α) + 1)) ^ 2) / 7643.022

/-- A bank at rest, each mode with the member initialisers of `Modal` for `M_PI` taken as
`355/113`, and an inharmonicity table of zeros: an input for concrete checks. -/
def restBank : Tonerig_modal ℚ :=
  { modes := fun _ => Modal.init (355 / 113), inharmonicities := fun _ => 0 }

/-- A frame at 44100 Hz with excitation 1, all knobs and voltages at zero: an input for
concrete checks. -/
def unitFrame : Frame ℚ :=
  { sampleRate := 44100, IN_INPUT := 1, FREQ_PARAM := 0, DAMP_PARAM := 0, INHARM_PARAM := 0,
    VOCT_INPUT := 0, DAMP_INPUT := 0, INHARM_INPUT := 0 }

/-- A stand-in for `std::pow` on the rationals that is constantly 40, so that the
fundamental of every frame is 17600 Hz: an input for concrete checks. -/
def pow40 (_ _ : ℚ) : ℚ := 40

end Bank

/-! ## Theorems -/

section Resonator

variable {α : Type} [LinearOrderedField α]

/-- A division by a non-zero denominator has the value of the field division. -/
theorem fdiv_of_ne (a : α) {b : α} (h : b ≠ 0) : fdiv a b = some (a / b) := by
  simp [fdiv, h]

/-- A division by zero has no value. -/
theorem fdiv_zero (a : α) : fdiv a (0 : α) = none := by
  simp [fdiv]

/-- One sub-step of the source computes the update formula of the specification. -/
theorem subStep_of_ne (f : α) (s : Modal α) (h : 1 + s.k * s.sigma0 ≠ 0) :
    Modal.subStep f s = some
      { s with
        up := s.u
        u := Modal.specUn s.k s.sigma0 s.omega0 s.m s.u s.up f } := by
  simp only [Modal.subStep, fdiv_of_ne _ h, Option.map_some', Modal.specUn, pow2]
  congr 2
  rw [show (1.0 : α) = 1 by norm_num, show (2.0 : α) = 2 by norm_num]
  ring

/-- A sub-step with `1 + k*sigma0 = 0` divides by zero. -/
theorem subStep_of_eq (f : α) (s : Modal α) (h : 1 + s.k * s.sigma0 = 0) :
    Modal.subStep f s = none := by
  simp [Modal.subStep, h, fdiv_zero]

/-- With `1 + k*sigma0` not zero, `getNextSample` is the `advance` of the specification. -/
theorem getNextSample_of_ne (s : Modal α) (f : α) (h : 1 + s.k * s.sigma0 ≠ 0) :
    Modal.getNextSample s f = some (Modal.specAdvance s f) := by
  simp only [Modal.getNextSample, Modal.subSteps, MODAL_OVERSAMPLING, subStep_of_ne f s h,
    Option.some_bind]
  have h2 := subStep_of_ne f
    { s with
      up := s.u
      u := Modal.specUn s.k s.sigma0 s.omega0 s.m s.u s.up f } h
  simp only [h2, Option.some_bind, Option.map_some', Modal.specAdvance]

/-- With `1 + k*sigma0 = 0`, `getNextSample` divides by zero. -/
theorem getNextSample_of_eq (s : Modal α) (f : α) (h : 1 + s.k * s.sigma0 = 0) :
    Modal.getNextSample s f = none := by
  simp [Modal.getNextSample, Modal.subSteps, MODAL_OVERSAMPLING, subStep_of_eq f s h]

/-- C1. `getNextSample(f)` is exactly two sub-steps of the update formula (each followed by
`up <- u; u <- un`), then `lp <- 0.9999*lp + 0.0001*u` with the new `u`, and the returned
sample is `(1 + sigma0) * (u - lp)` from the new `u` and the new `lp`; `k`, `sigma0`,
`omega0` and `m` are unchanged.  Where `1 + k*sigma0 = 0` the formula divides by zero and
the call has no value. -/
theorem getNextSample_eq_two_substeps (s : Modal α) (f : α) :
    Modal.getNextSample s f =
        (if 1 + s.k * s.sigma0 = 0 then none else some (Modal.specAdvance s f)) ∧
      (Modal.specAdvance s f).1.k = s.k ∧ (Modal.specAdvance s f).1.sigma0 = s.sigma0 ∧
      (Modal.specAdvance s f).1.omega0 = s.omega0 ∧ (Modal.specAdvance s f).1.m = s.m := by
  refine ⟨?_, rfl, rfl, rfl, rfl⟩
  by_cases h : 1 + s.k * s.sigma0 = 0
  · rw [if_pos h, getNextSample_of_eq s f h]
  · rw [if_neg h, getNextSample_of_ne s f h]

/-- C4, counterexample.  A silenced resonator at rest with `k = 1` and `sigma0 = -1`:
`1 + k*sigma0` is zero, the call divides by zero and does not return the sample 0. -/
theorem getNextSample_silenced_counterexample :
    Modal.getNextSample
        ({ u := 0, up := 0, lp := 0, m := 0, omega0 := 1, sigma0 := -1, k := 1 } : Modal ℚ) 1
      = none ∧
    ¬ ∃ s1 : Modal ℚ, Modal.getNextSample
        ({ u := 0, up := 0, lp := 0, m := 0, omega0 := 1, sigma0 := -1, k := 1 } : Modal ℚ) 1
      = some (s1, 0) := by
  have h : Modal.getNextSample
      ({ u := 0, up := 0, lp := 0, m := 0, omega0 := 1, sigma0 := -1, k := 1 } : Modal ℚ) 1
      = none := by
    simp [Modal.getNextSample, Modal.subSteps, Modal.subStep, fdiv, MODAL_OVERSAMPLING]
  refine ⟨h, ?_⟩
  rintro ⟨s1, h1⟩
  rw [h] at h1
  exact Option.noConfusion h1

/-- A silenced resonator at rest stays at rest and yields the sample 0. -/
theorem specAdvance_silenced (s : Modal α) (f : α) (hm : s.m = 0) (hu : s.u = 0)
    (hup : s.up = 0) (hlp : s.lp = 0) : Modal.specAdvance s f = (s, 0) := by
  obtain ⟨u, up, lp, m, omega0, sigma0, k⟩ := s
  simp only at hm hu hup hlp
  subst hm hu hup hlp
  simp [Modal.specAdvance, Modal.specUn]

/-- C4, amended.  A resonator with `m = 0` and `u = up = lp = 0` whose `k` and `sigma0` do
not have opposite signs (`k * sigma0 >= 0`) and whose `k`, `omega0`, `sigma0` are at most
`10^9` in magnitude: the denominator `1 + k*sigma0` is at least 1, the products the update
formula forms stay at most `10^36` in magnitude (inside the range of a single-precision
float, whose largest value is about `3.4 * 10^38`), the call returns exactly 0 for every
force and the resonator stays at rest, so every later call returns 0 as well, whatever the
forces. -/
theorem getNextSample_silenced (s : Modal α) (hm : s.m = 0) (hu : s.u = 0) (hup : s.up = 0)
    (hlp : s.lp = 0) (hks : 0 ≤ s.k * s.sigma0) (hk : |s.k| ≤ 10 ^ 9)
    (hw : |s.omega0| ≤ 10 ^ 9) (hs : |s.sigma0| ≤ 10 ^ 9) :
    1 ≤ 1 + s.k * s.sigma0 ∧
      pow2 s.k ≤ 10 ^ 18 ∧ pow2 s.omega0 ≤ 10 ^ 18 ∧
      pow2 s.k * pow2 s.omega0 ≤ 10 ^ 36 ∧ |s.sigma0 * s.k| ≤ 10 ^ 18 ∧
      (∀ f, Modal.getNextSample s f = some (s, 0)) ∧
      ∀ fs : List α, Modal.run s fs = some (s, List.replicate fs.length 0) := by
  have hd : 1 + s.k * s.sigma0 ≠ 0 := by
    intro h0
    linarith
  have sq : ∀ x : α, |x| ≤ 10 ^ 9 → pow2 x ≤ 10 ^ 18 := fun x hx => by
    have e : pow2 x = |x| * |x| := by rw [pow2, abs_mul_abs_self]
    rw [e]
    calc |x| * |x| ≤ 10 ^ 9 * 10 ^ 9 := mul_le_mul hx hx (abs_nonneg x) (by positivity)
      _ = 10 ^ 18 := by norm_num
  have hk2 := sq s.k hk
  have hw2 := sq s.omega0 hw
  have hw0 : 0 ≤ pow2 s.omega0 := by rw [pow2]; exact mul_self_nonneg _
  have hprod : pow2 s.k * pow2 s.omega0 ≤ 10 ^ 36 := by
    calc pow2 s.k * pow2 s.omega0 ≤ 10 ^ 18 * 10 ^ 18 :=
          mul_le_mul hk2 hw2 hw0 (by positivity)
      _ = 10 ^ 36 := by norm_num
  have hsk : |s.sigma0 * s.k| ≤ 10 ^ 18 := by
    rw [abs_mul]
    calc |s.sigma0| * |s.k| ≤ 10 ^ 9 * 10 ^ 9 :=
          mul_le_mul hs hk (abs_nonneg _) (by positivity)
      _ = 10 ^ 18 := by norm_num
  have h1 : ∀ f, Modal.getNextSample s f = some (s, 0) := fun f => by
    rw [getNextSample_of_ne s f hd, specAdvance_silenced s f hm hu hup hlp]
  refine ⟨by linarith, hk2, hw2, hprod, hsk, h1, fun fs => ?_⟩
  induction fs with
  | nil => rfl
  | cons f fs ih => simp [Modal.run, h1 f, ih, List.replicate_succ]

/-- C4, witness: a silenced resonator at rest with `k = 1/88200`, `sigma0 = 2` and
`omega0 = 2764`. -/
theorem getNextSample_silenced_witness :
    (∀ f, Modal.getNextSample
        ({ u := 0, up := 0, lp := 0, m := 0, omega0 := 2764, sigma0 := 2, k := 1 / 88200 } :
          Modal ℚ) f
      = some ({ u := 0, up := 0, lp := 0, m := 0, omega0 := 2764, sigma0 := 2,
                k := 1 / 88200 }, 0)) ∧
    ∀ fs : List ℚ, Modal.run
        ({ u := 0, up := 0, lp := 0, m := 0, omega0 := 2764, sigma0 := 2, k := 1 / 88200 } :
          Modal ℚ) fs
      = some ({ u := 0, up := 0, lp := 0, m := 0, omega0 := 2764, sigma0 := 2,
                k := 1 / 88200 }, List.replicate fs.length 0) :=
  (getNextSample_silenced _ rfl rfl rfl rfl (by norm_num)
    (abs_le.mpr ⟨by norm_num, by norm_num⟩) (abs_le.mpr ⟨by norm_num, by norm_num⟩)
    (abs_le.mpr ⟨by norm_num, by norm_num⟩)).2.2.2.2.2

/-- The unforced sub-step as a recurrence: `(1 + k*sigma0) * un = (2 - k²ω0²) * u - (1 -
k*sigma0) * up`. -/
theorem subStep_zero_force (s : Modal α) (h : 1 + s.k * s.sigma0 ≠ 0) :
    ∃ s1, Modal.subStep 0 s = some s1 ∧ s1.up = s.u ∧ s1.lp = s.lp ∧ s1.m = s.m ∧
      s1.omega0 = s.omega0 ∧ s1.sigma0 = s.sigma0 ∧ s1.k = s.k ∧
      (1 + s.k * s.sigma0) * s1.u =
        (2 - s.k ^ 2 * s.omega0 ^ 2) * s.u - (1 - s.k * s.sigma0) * s.up := by
  refine ⟨_, subStep_of_ne 0 s h, rfl, rfl, rfl, rfl, rfl, rfl, ?_⟩
  simp only [Modal.specUn]
  field_simp
  ring

/-- The energy lost by one unforced sub-step is `k*sigma0 * (un - up)²`. -/
theorem energy_subStep (s s1 : Modal α) (hup : s1.up = s.u) (hw : s1.omega0 = s.omega0)
    (hk : s1.k = s.k)
    (hu : (1 + s.k * s.sigma0) * s1.u =
        (2 - s.k ^ 2 * s.omega0 ^ 2) * s.u - (1 - s.k * s.sigma0) * s.up) :
    Modal.energy s1 = Modal.energy s - s.k * s.sigma0 * (s1.u - s.up) ^ 2 := by
  simp only [Modal.energy, hup, hw, hk]
  linear_combination (s1.u - s.up) * hu

/-- The energy dominates `k²ω0² * (4 - k²ω0²) / 4 * u²`. -/
theorem energy_lower (s : Modal α) :
    (s.k ^ 2 * s.omega0 ^ 2) * (4 - s.k ^ 2 * s.omega0 ^ 2) / 4 * s.u ^ 2 ≤ Modal.energy s := by
  have h : Modal.energy s - (s.k ^ 2 * s.omega0 ^ 2) * (4 - s.k ^ 2 * s.omega0 ^ 2) / 4 * s.u ^ 2
      = (s.up - (2 - s.k ^ 2 * s.omega0 ^ 2) / 2 * s.u) ^ 2 := by
    simp only [Modal.energy]
    ring
  have h2 := sq_nonneg (s.up - (2 - s.k ^ 2 * s.omega0 ^ 2) / 2 * s.u)
  linarith

/-- With `k*sigma0 >= 0` the unforced sub-steps are defined, keep the parameters and do not
raise the energy; with `k*sigma0 = 0` they conserve it. -/
theorem subSteps_energy_le (n : Nat) : ∀ s : Modal α, 0 ≤ s.k * s.sigma0 →
    ∃ s1, Modal.subSteps 0 n s = some s1 ∧ s1.k = s.k ∧ s1.sigma0 = s.sigma0 ∧
      s1.omega0 = s.omega0 ∧ Modal.energy s1 ≤ Modal.energy s ∧
      (s.k * s.sigma0 = 0 → Modal.energy s1 = Modal.energy s) := by
  induction n with
  | zero => intro s _; exact ⟨s, rfl, rfl, rfl, rfl, le_refl _, fun _ => rfl⟩
  | succ n ih =>
    intro s ha
    have hd : 1 + s.k * s.sigma0 ≠ 0 := by linarith
    obtain ⟨s1, h1, hup, -, -, hw, hs, hk, hu⟩ := subStep_zero_force s hd
    have he := energy_subStep s s1 hup hw hk hu
    obtain ⟨s2, h2, hk2, hs2, hw2, hle, heq⟩ := ih s1 (by rw [hk, hs]; exact ha)
    refine ⟨s2, ?_, hk2.trans hk, hs2.trans hs, hw2.trans hw, ?_, ?_⟩
    · simp only [Modal.subSteps, h1, Option.some_bind, h2]
    · have := mul_nonneg ha (sq_nonneg (s1.u - s.up))
      linarith
    · intro h0
      rw [heq (by rw [hk, hs]; exact h0), he, h0]
      ring

/-- An absolute value is at most one plus the square. -/
theorem abs_le_one_add_sq (x : α) : |x| ≤ 1 + x ^ 2 := by
  have h1 := sq_nonneg (|x| - 1)
  have h2 := sq_abs x
  have h3 := abs_nonneg x
  nlinarith

/-- On the boundary `2 - k²ω0² = ±2` with damping, one step of the recurrence keeps `|d*u -
(b/2)*t*up|` and the bound on `|u|`. -/
theorem edge_step (d t b u up u1 W M : α) (hd : 0 < d) (hdt : d + t = 2)
    (hb : b = 2 ∨ b = -2) (hstep : d * u1 = b * u - t * up)
    (hW : |d * u - b / 2 * t * up| ≤ W) (hM : |u| ≤ M) (hWM : W + |t| * M ≤ d * M) :
    |d * u1 - b / 2 * t * u| ≤ W ∧ |u1| ≤ M := by
  have hb2 : b / 2 * (b / 2) = 1 := by
    rcases hb with h | h <;> rw [h] <;> norm_num
  have habs : |b / 2| = 1 := by
    rcases hb with h | h <;> rw [h] <;> norm_num
  have hw1 : d * u1 - b / 2 * t * u = b / 2 * (d * u - b / 2 * t * up) := by
    have ht : t = 2 - d := by linarith
    rw [hstep, ht]
    linear_combination ((2 - d) * up) * hb2
  have h1 : |d * u1 - b / 2 * t * u| ≤ W := by
    rw [hw1, abs_mul, habs, one_mul]
    exact hW
  refine ⟨h1, ?_⟩
  have h2 : |d * u1| ≤ W + |t| * M := by
    have e : d * u1 = (d * u1 - b / 2 * t * u) + b / 2 * t * u := by ring
    rw [e]
    refine (abs_add _ _).trans (add_le_add h1 ?_)
    rw [abs_mul, abs_mul, habs, one_mul]
    exact mul_le_mul_of_nonneg_left hM (abs_nonneg t)
  rw [abs_mul, abs_of_pos hd] at h2
  exact le_of_mul_le_mul_left (h2.trans hWM) hd

/-- On the boundary of the stability region with positive damping the unforced sub-steps keep
`|u|` under the bound `M`. -/
theorem subSteps_edge (W M : α) (n : Nat) : ∀ s : Modal α, 0 < s.k * s.sigma0 →
    (2 - s.k ^ 2 * s.omega0 ^ 2 = 2 ∨ 2 - s.k ^ 2 * s.omega0 ^ 2 = -2) →
    |(1 + s.k * s.sigma0) * s.u
        - (2 - s.k ^ 2 * s.omega0 ^ 2) / 2 * (1 - s.k * s.sigma0) * s.up| ≤ W →
    |s.u| ≤ M → W + |1 - s.k * s.sigma0| * M ≤ (1 + s.k * s.sigma0) * M →
    ∃ s1, Modal.subSteps 0 n s = some s1 ∧ |s1.u| ≤ M := by
  induction n with
  | zero => intro s _ _ _ hM _; exact ⟨s, rfl, hM⟩
  | succ n ih =>
    intro s ha hb hW hM hWM
    have hd : 0 < 1 + s.k * s.sigma0 := by linarith
    obtain ⟨s1, h1, hup, -, -, hw, hs, hk, hu⟩ := subStep_zero_force s hd.ne'
    obtain ⟨hW1, hM1⟩ := edge_step _ _ _ _ _ _ W M hd (by ring) hb hu hW hM hWM
    obtain ⟨s2, h2, hB⟩ := ih s1 (by rw [hk, hs]; exact ha) (by rw [hk, hw]; exact hb)
      (by rw [hk, hs, hw, hup]; exact hW1) hM1 (by rw [hk, hs]; exact hWM)
    exact ⟨s2, by simp only [Modal.subSteps, h1, Option.some_bind, h2], hB⟩

/-- With `k²ω0² = 9` and `0 <= k*sigma0 <= 1` every unforced sub-step at least doubles `|u|`. -/
theorem subSteps_grow (n : Nat) : ∀ s : Modal α, 0 ≤ s.k * s.sigma0 →
    s.k * s.sigma0 ≤ 1 → s.k ^ 2 * s.omega0 ^ 2 = 9 → 2 * |s.up| ≤ |s.u| →
    ∃ s1, Modal.subSteps 0 n s = some s1 ∧ 2 ^ n * |s.u| ≤ |s1.u| := by
  induction n with
  | zero => intro s _ _ _ _; exact ⟨s, rfl, by simp⟩
  | succ n ih =>
    intro s ha ha1 hq hinv
    have hd : 0 < 1 + s.k * s.sigma0 := by linarith
    obtain ⟨s1, h1, hup, -, -, hw, hs1, hk, hu⟩ := subStep_zero_force s hd.ne'
    rw [hq] at hu
    have hge : 2 * |s.u| ≤ |s1.u| := by
      have e : 7 * s.u = -((1 + s.k * s.sigma0) * s1.u) - (1 - s.k * s.sigma0) * s.up := by
        rw [hu]; ring
      have h7 : |7 * s.u| ≤ |(1 + s.k * s.sigma0) * s1.u| + |(1 - s.k * s.sigma0) * s.up| := by
        rw [e]
        refine (abs_sub _ _).trans ?_
        rw [abs_neg]
      rw [abs_mul, abs_of_pos (by norm_num : (0 : α) < 7), abs_mul, abs_of_pos hd, abs_mul,
        abs_of_nonneg (by linarith : 0 ≤ 1 - s.k * s.sigma0)] at h7
      have hu0 := abs_nonneg s.u
      have hup0 := abs_nonneg s.up
      have hs0 := abs_nonneg s1.u
      have h3 : (1 - s.k * s.sigma0) * |s.up| ≤ 1 * |s.up| :=
        mul_le_mul_of_nonneg_right (by linarith) hup0
      have h4 : (1 + s.k * s.sigma0) * |s1.u| ≤ 2 * |s1.u| :=
        mul_le_mul_of_nonneg_right (by linarith) hs0
      linarith
    obtain ⟨s2, h2, hB⟩ := ih s1 (by rw [hk, hs1]; exact ha) (by rw [hk, hs1]; exact ha1)
      (by rw [hk, hw]; exact hq) (by rw [hup]; exact hge)
    refine ⟨s2, by simp only [Modal.subSteps, h1, Option.some_bind, h2], ?_⟩
    have hp : (0 : α) ≤ 2 ^ n := by positivity
    calc (2 : α) ^ (n + 1) * |s.u| = 2 ^ n * (2 * |s.u|) := by ring
      _ ≤ 2 ^ n * |s1.u| := mul_le_mul_of_nonneg_left hge hp
      _ ≤ |s2.u| := hB

/-- C9, counterexample.  The default damping `sigma0 = 2` with `k = 1/100000` and
`omega0 = 300000`, so that `k*omega0 = 3`: from `u = 1`, `up = 0` with zero forcing the
sub-steps at least double `|u|` each time and are not bounded. -/
theorem subSteps_unbounded_counterexample :
    ¬ ∃ B : ℚ, ∀ n : ℕ, ∃ s1, Modal.subSteps 0 n
        ({ u := 1, up := 0, lp := 0, m := 2000, omega0 := 300000, sigma0 := 2,
           k := 1 / 100000 } : Modal ℚ) = some s1 ∧ |s1.u| ≤ B := by
  rintro ⟨B, hB⟩
  obtain ⟨n, hn⟩ := pow_unbounded_of_one_lt B (by norm_num : (1 : ℚ) < 2)
  obtain ⟨s1, h1, hle⟩ := hB n
  obtain ⟨s2, h2, hge⟩ := subSteps_grow n
    ({ u := 1, up := 0, lp := 0, m := 2000, omega0 := 300000, sigma0 := 2,
       k := 1 / 100000 } : Modal ℚ) (by norm_num) (by norm_num) (by norm_num) (by norm_num)
  rw [h1] at h2
  cases h2
  simp only [abs_one, mul_one] at hge
  linarith

/-- C9, amended.  With `sigma0 >= 0`, `k > 0` and zero forcing the sub-steps stay bounded
when `(k*omega0)^2 <= 4` and, for `sigma0 = 0`, moreover `0 < (k*omega0)^2 < 4`: there is
a bound `B` with `|u_n| <= B` for all `n`, and every sub-step is defined. -/
theorem subSteps_bounded (s : Modal α) (hs : 0 ≤ s.sigma0) (hk : 0 < s.k)
    (hq : (s.k * s.omega0) ^ 2 ≤ 4)
    (h0 : s.sigma0 = 0 → 0 < (s.k * s.omega0) ^ 2 ∧ (s.k * s.omega0) ^ 2 < 4) :
    ∃ B, ∀ n, ∃ s1, Modal.subSteps 0 n s = some s1 ∧ |s1.u| ≤ B := by
  have ha : 0 ≤ s.k * s.sigma0 := mul_nonneg hk.le hs
  have hqe : (s.k * s.omega0) ^ 2 = s.k ^ 2 * s.omega0 ^ 2 := by ring
  by_cases hin : 0 < (s.k * s.omega0) ^ 2 ∧ (s.k * s.omega0) ^ 2 < 4
  · -- the energy is positive definite and does not grow
    obtain ⟨hq0, hq4⟩ := hin
    rw [hqe] at hq0 hq4
    have hc : 0 < (s.k ^ 2 * s.omega0 ^ 2) * (4 - s.k ^ 2 * s.omega0 ^ 2) / 4 :=
      div_pos (mul_pos hq0 (by linarith)) (by norm_num)
    refine ⟨1 + Modal.energy s / ((s.k ^ 2 * s.omega0 ^ 2) * (4 - s.k ^ 2 * s.omega0 ^ 2) / 4),
      fun n => ?_⟩
    obtain ⟨s1, h1, hk1, -, hw1, hle, -⟩ := subSteps_energy_le n s ha
    refine ⟨s1, h1, (abs_le_one_add_sq s1.u).trans (add_le_add_left ?_ 1)⟩
    rw [le_div_iff₀ hc]
    have := energy_lower s1
    rw [hk1, hw1] at this
    linarith
  · -- the boundary of the stability region, with damping
    have hsp : 0 < s.sigma0 := by
      rcases hs.lt_or_eq with h | h
      · exact h
      · exact absurd (h0 h.symm) hin
    have hap : 0 < s.k * s.sigma0 := mul_pos hk hsp
    have hb : 2 - s.k ^ 2 * s.omega0 ^ 2 = 2 ∨ 2 - s.k ^ 2 * s.omega0 ^ 2 = -2 := by
      rw [← hqe]
      by_cases hz : (s.k * s.omega0) ^ 2 = 0
      · left; rw [hz]; ring
      · right
        have hpos : 0 < (s.k * s.omega0) ^ 2 := lt_of_le_of_ne (sq_nonneg _) (Ne.symm hz)
        have : (s.k * s.omega0) ^ 2 = 4 := by
          by_contra hne
          exact hin ⟨hpos, lt_of_le_of_ne hq hne⟩
        rw [this]; norm_num
    have hgap : 0 < (1 + s.k * s.sigma0) - |1 - s.k * s.sigma0| := by
      have : |1 - s.k * s.sigma0| < 1 + s.k * s.sigma0 := by
        rw [abs_lt]; constructor <;> linarith
      linarith
    refine ⟨|s.u| + |(1 + s.k * s.sigma0) * s.u
        - (2 - s.k ^ 2 * s.omega0 ^ 2) / 2 * (1 - s.k * s.sigma0) * s.up|
          / ((1 + s.k * s.sigma0) - |1 - s.k * s.sigma0|), fun n => ?_⟩
    refine subSteps_edge _ _ n s hap hb (le_refl _) ?_ ?_
    · exact le_add_of_nonneg_right (div_nonneg (abs_nonneg _) hgap.le)
    · have hW := abs_nonneg ((1 + s.k * s.sigma0) * s.u
        - (2 - s.k ^ 2 * s.omega0 ^ 2) / 2 * (1 - s.k * s.sigma0) * s.up)
      have hu := abs_nonneg s.u
      have e : ((1 + s.k * s.sigma0) - |1 - s.k * s.sigma0|) *
          (|(1 + s.k * s.sigma0) * s.u
            - (2 - s.k ^ 2 * s.omega0 ^ 2) / 2 * (1 - s.k * s.sigma0) * s.up|
            / ((1 + s.k * s.sigma0) - |1 - s.k * s.sigma0|)) =
          |(1 + s.k * s.sigma0) * s.u
            - (2 - s.k ^ 2 * s.omega0 ^ 2) / 2 * (1 - s.k * s.sigma0) * s.up| :=
        mul_div_cancel₀ _ hgap.ne'
      nlinarith [mul_nonneg hgap.le hu]

/-- C9, witness: the default damping 2 at `k = 1/88200` and `omega0 = 2764`. -/
theorem subSteps_bounded_witness :
    ∃ B : ℚ, ∀ n, ∃ s1, Modal.subSteps 0 n
        ({ u := 1, up := 0, lp := 0, m := 2000, omega0 := 2764, sigma0 := 2,
           k := 1 / 88200 } : Modal ℚ) = some s1 ∧ |s1.u| ≤ B :=
  subSteps_bounded _ (by norm_num) (by norm_num) (by norm_num)
    (fun h => absurd h (by norm_num))

/-- An undamped, unforced call of `getNextSample` is defined and conserves the energy. -/
theorem getNextSample_zero_energy (s : Modal α) (hs : s.sigma0 = 0) :
    ∃ r, Modal.getNextSample s 0 = some r ∧ r.1.sigma0 = 0 ∧ r.1.k = s.k ∧
      r.1.omega0 = s.omega0 ∧ Modal.energy r.1 = Modal.energy s := by
  have hd : 1 + s.k * s.sigma0 ≠ 0 := by rw [hs]; norm_num
  refine ⟨_, getNextSample_of_ne s 0 hd, hs, rfl, rfl, ?_⟩
  simp only [Modal.specAdvance, Modal.specUn, Modal.energy, hs]
  ring

/-- Any number of undamped, unforced calls conserves the energy. -/
theorem run_zero_energy (n : Nat) : ∀ s : Modal α, s.sigma0 = 0 →
    ∃ s1 outs, Modal.run s (List.replicate n 0) = some (s1, outs) ∧ s1.k = s.k ∧
      s1.omega0 = s.omega0 ∧ Modal.energy s1 = Modal.energy s := by
  induction n with
  | zero => intro s _; exact ⟨s, [], rfl, rfl, rfl, rfl⟩
  | succ n ih =>
    intro s hs
    obtain ⟨r, hr, hs1, hk1, hw1, he1⟩ := getNextSample_zero_energy s hs
    obtain ⟨s2, outs, h2, hk2, hw2, he2⟩ := ih r.1 hs1
    exact ⟨s2, r.2 :: outs, by simp [List.replicate_succ, Modal.run, hr, h2], hk2.trans hk1,
      hw2.trans hw1, he2.trans he1⟩

/-- Undamped and unforced with `omega0 = 0`, a resonator with `u - up = 1` moves by 2 at every
call. -/
theorem run_drift (n : Nat) : ∀ s : Modal α, s.sigma0 = 0 → s.omega0 = 0 →
    s.u - s.up = 1 →
    ∃ s1 outs, Modal.run s (List.replicate n 0) = some (s1, outs) ∧ s1.u = s.u + 2 * n := by
  induction n with
  | zero => intro s _ _ _; exact ⟨s, [], rfl, by simp⟩
  | succ n ih =>
    intro s hs hw hv
    have hd : 1 + s.k * s.sigma0 ≠ 0 := by rw [hs]; norm_num
    have hr := getNextSample_of_ne s 0 hd
    have hu : (Modal.specAdvance s 0).1.u = s.u + 2 := by
      simp only [Modal.specAdvance, Modal.specUn, hs, hw]
      have : s.up = s.u - 1 := by linarith
      rw [this]; ring
    have hup : (Modal.specAdvance s 0).1.u - (Modal.specAdvance s 0).1.up = 1 := by
      simp only [Modal.specAdvance, Modal.specUn, hs, hw]
      have : s.up = s.u - 1 := by linarith
      rw [this]; ring
    obtain ⟨s2, outs, h2, hu2⟩ := ih (Modal.specAdvance s 0).1 hs hw hup
    refine ⟨s2, (Modal.specAdvance s 0).2 :: outs,
      by simp [List.replicate_succ, Modal.run, hr, h2], ?_⟩
    rw [hu2, hu]; push_cast; ring

/-- C10, counterexample.  Zero damping, zero forcing and `omega0 = 0`: from `u = 1`,
`up = 0` the energy stays 1 while after `n` calls of `getNextSample` the state is
`u = 2*n + 1`, which grows with every call. -/
theorem run_drift_counterexample :
    Modal.energy
        ({ u := 1, up := 0, lp := 0, m := 2000, omega0 := 0, sigma0 := 0,
           k := 1 / 88200 } : Modal ℚ) = 1 ∧
    ∀ n : ℕ, ∃ s1 outs, Modal.run
        ({ u := 1, up := 0, lp := 0, m := 2000, omega0 := 0, sigma0 := 0,
           k := 1 / 88200 } : Modal ℚ) (List.replicate n 0) = some (s1, outs) ∧
      s1.u = 2 * n + 1 ∧ Modal.energy s1 = 1 := by
  have he : Modal.energy
      ({ u := 1, up := 0, lp := 0, m := 2000, omega0 := 0, sigma0 := 0,
         k := 1 / 88200 } : Modal ℚ) = 1 := by
    norm_num [Modal.energy]
  refine ⟨he, fun n => ?_⟩
  obtain ⟨s1, outs, h1, hu⟩ := run_drift n
    ({ u := 1, up := 0, lp := 0, m := 2000, omega0 := 0, sigma0 := 0,
       k := 1 / 88200 } : Modal ℚ) rfl rfl (by norm_num)
  obtain ⟨s2, outs2, h2, -, -, he2⟩ := run_zero_energy n
    ({ u := 1, up := 0, lp := 0, m := 2000, omega0 := 0, sigma0 := 0,
       k := 1 / 88200 } : Modal ℚ) rfl
  rw [h1] at h2
  cases h2
  exact ⟨s1, outs, h1, by rw [hu]; ring, he2.trans he⟩

/-- C10, amended.  With `sigma0 = 0` and zero forcing, for every `k`, `omega0` and state,
each sub-step, each `getNextSample` call and any number of calls leave the energy
`E(u, up) = u^2 + up^2 - (2 - k^2*omega0^2)*u*up` exactly unchanged; when
`0 < k^2*omega0^2 < 4` this bounds the state after any number of calls,
`u^2 <= E / (k^2*omega0^2 * (4 - k^2*omega0^2) / 4)`, so the state does not grow. -/
theorem energy_conserved (s : Modal α) (hs : s.sigma0 = 0) :
    (∃ s1, Modal.subStep 0 s = some s1 ∧ Modal.energy s1 = Modal.energy s) ∧
    (∃ r, Modal.getNextSample s 0 = some r ∧ Modal.energy r.1 = Modal.energy s) ∧
    ∀ n : ℕ, ∃ s1 outs, Modal.run s (List.replicate n 0) = some (s1, outs) ∧
      Modal.energy s1 = Modal.energy s ∧
      (0 < s.k ^ 2 * s.omega0 ^ 2 → s.k ^ 2 * s.omega0 ^ 2 < 4 →
        s1.u ^ 2 ≤
          Modal.energy s / ((s.k ^ 2 * s.omega0 ^ 2) * (4 - s.k ^ 2 * s.omega0 ^ 2) / 4)) := by
  refine ⟨?_, ?_, fun n => ?_⟩
  · have hd : 1 + s.k * s.sigma0 ≠ 0 := by rw [hs]; norm_num
    obtain ⟨s1, h1, hup, -, -, hw, -, hk, hu⟩ := subStep_zero_force s hd
    refine ⟨s1, h1, ?_⟩
    rw [energy_subStep s s1 hup hw hk hu, hs]
    ring
  · obtain ⟨r, hr, -, -, -, he⟩ := getNextSample_zero_energy s hs
    exact ⟨r, hr, he⟩
  · obtain ⟨s1, outs, h1, hk1, hw1, he1⟩ := run_zero_energy n s hs
    refine ⟨s1, outs, h1, he1, fun hq0 hq4 => ?_⟩
    have hc : 0 < (s.k ^ 2 * s.omega0 ^ 2) * (4 - s.k ^ 2 * s.omega0 ^ 2) / 4 :=
      div_pos (mul_pos hq0 (by linarith)) (by norm_num)
    rw [le_div_iff₀ hc]
    have := energy_lower s1
    rw [hk1, hw1] at this
    linarith

/-- C10, witness: an undamped resonator at `k = 1/88200`, `omega0 = 2764`. -/
theorem energy_conserved_witness :
    ∃ r, Modal.getNextSample
        ({ u := 1, up := 0, lp := 0, m := 2000, omega0 := 2764, sigma0 := 0,
           k := 1 / 88200 } : Modal ℚ) 0 = some r ∧
      Modal.energy r.1 = Modal.energy
        ({ u := 1, up := 0, lp := 0, m := 2000, omega0 := 2764, sigma0 := 0,
           k := 1 / 88200 } : Modal ℚ) :=
  (energy_conserved _ rfl).2.1

end Resonator

section Controls

variable {α : Type} [LinearOrderedField α]

/-- For `lo <= hi`, `constrain` is the usual clamp. -/
theorem constrain_eq_max_min (x lo hi : α) (h : lo ≤ hi) :
    constrain x lo hi = max lo (min x hi) := by
  unfold constrain
  split_ifs with h1 h2
  · rw [min_eq_left (h1.le.trans h), max_eq_left h1.le]
  · rw [min_eq_right h2.le, max_eq_right h]
  · rw [min_eq_left (not_lt.mp h2), max_eq_right (not_lt.mp h1)]

/-- For `lo <= hi`, `constrain` lands in `[lo, hi]`. -/
theorem constrain_mem (x lo hi : α) (h : lo ≤ hi) :
    lo ≤ constrain x lo hi ∧ constrain x lo hi ≤ hi := by
  rw [constrain_eq_max_min x lo hi h]
  exact ⟨le_max_left _ _, max_le h (min_le_right _ _)⟩

/-- The clamp the code applies to the inharmonicity amount: the knob value plus `v/5` is
constrained to `[0, 1]`, so every sum that is not positive gives the amount 0. -/
theorem inharmCtl_clamped (a : Frame α) :
    inharmCtl a = max 0 (min (a.INHARM_PARAM + a.INHARM_INPUT / 5) 1) ∧
      0 ≤ inharmCtl a ∧ inharmCtl a ≤ 1 ∧
      (a.INHARM_PARAM + a.INHARM_INPUT / 5 ≤ 0 → inharmCtl a = 0) := by
  have h5 : (5.0 : α) = 5 := by norm_num
  have e : inharmCtl a = constrain (a.INHARM_PARAM + a.INHARM_INPUT / 5) 0 1 := by
    rw [inharmCtl, h5]
  refine ⟨?_, ?_, ?_, ?_⟩
  · rw [e, constrain_eq_max_min _ _ _ zero_le_one]
  · rw [e]; exact (constrain_mem _ _ _ zero_le_one).1
  · rw [e]; exact (constrain_mem _ _ _ zero_le_one).2
  · intro hle
    rw [e, constrain_eq_max_min _ _ _ zero_le_one, min_eq_left (hle.trans zero_le_one),
      max_eq_left hle]

/-- C5, the code at the failing input.  The inharmonicity knob at -1, inside its configured
range `[-1, 1]`, with no CV: the clamp back to the knob's range that the claim describes
gives -1, while the amount the code hands to the mode-frequency formula is 0.  The same
holds on the whole negative half of the knob: with no CV every knob value `<= 0` gives the
amount 0, although the sum lies inside `[-1, 1]` and the claim's clamp would keep it. -/
theorem inharmCtl_negative_knob :
    constrain ((-1 : ℚ) + 0 / 5) (-1) 1 = -1 ∧
    inharmCtl
        ({ sampleRate := 44100, IN_INPUT := 0, FREQ_PARAM := 0, DAMP_PARAM := 0,
           INHARM_PARAM := -1, VOCT_INPUT := 0, DAMP_INPUT := 0, INHARM_INPUT := 0 } :
          Frame ℚ) = 0 ∧
    inharmCtl
        ({ sampleRate := 44100, IN_INPUT := 0, FREQ_PARAM := 0, DAMP_PARAM := 0,
           INHARM_PARAM := -1, VOCT_INPUT := 0, DAMP_INPUT := 0, INHARM_INPUT := 0 } :
          Frame ℚ) ≠ constrain (-1 + 0 / 5) (-1) 1 ∧
    ∀ a : Frame ℚ, -1 ≤ a.INHARM_PARAM → a.INHARM_PARAM ≤ 0 → a.INHARM_INPUT = 0 →
      inharmCtl a = 0 ∧
        constrain (a.INHARM_PARAM + a.INHARM_INPUT / 5) (-1) 1 = a.INHARM_PARAM := by
  refine ⟨by norm_num [constrain], by norm_num [inharmCtl, constrain],
    by norm_num [inharmCtl, constrain], fun a hlo hhi hv => ?_⟩
  have hsum : a.INHARM_PARAM + a.INHARM_INPUT / 5 = a.INHARM_PARAM := by
    rw [hv]; norm_num
  have h5 : (5.0 : ℚ) = 5 := by norm_num
  have e : inharmCtl a = constrain (a.INHARM_PARAM + a.INHARM_INPUT / 5) 0 1 := by
    rw [inharmCtl, h5]
  constructor
  · rw [e, hsum, constrain_eq_max_min _ _ _ zero_le_one, min_eq_left (hhi.trans zero_le_one),
      max_eq_left hhi]
  · rw [hsum, constrain_eq_max_min _ _ _ (by norm_num), min_eq_left (hhi.trans zero_le_one),
      max_eq_right hlo]

/-- The linear map for distinct `oldMin` and `oldMax`. -/
theorem map_of_ne (x oldMin oldMax newMin newMax : α) (h : oldMax - oldMin ≠ 0) :
    map x oldMin oldMax newMin newMax =
      some (newMin + (x - oldMin) / (oldMax - oldMin) * (newMax - newMin)) := by
  simp only [map, fdiv_of_ne _ h, Option.map_some']

/-- The damping-growth multiplier in closed form. -/
theorem dampDecOf_eq (d : α) : dampDecOf d = some (max (1 + (d - 5) / 50) 1) := by
  have h : (10.0 : α) - 5 ≠ 0 := by norm_num
  rw [dampDecOf, map_of_ne _ _ _ _ _ h, Option.map_some']
  congr 2
  norm_num
  ring

/-- C6.  The damping-growth multiplier `dampDec = max(map(d, 5, 10, 1, 1.1), 1)` is 1 for
every `d <= 5`, satisfies `1 <= dampDec(a) < dampDec(b) <= 1.1` for `5 <= a < b <= 10`, and
is 1.1 at `d = 10`. -/
theorem dampDecOf_spec :
    (∀ d : α, d ≤ 5 → dampDecOf d = some 1) ∧
    (∀ a b : α, 5 ≤ a → a < b → b ≤ 10 →
      ∃ ga gb, dampDecOf a = some ga ∧ dampDecOf b = some gb ∧
        1 ≤ ga ∧ ga < gb ∧ gb ≤ 1.1) ∧
    dampDecOf (10 : α) = some 1.1 := by
  refine ⟨fun d hd => ?_, fun a b ha hab hb => ?_, ?_⟩
  · rw [dampDecOf_eq, max_eq_right]
    have : (d - 5) / 50 ≤ 0 := div_nonpos_of_nonpos_of_nonneg (by linarith) (by norm_num)
    linarith
  · have h50 : (0 : α) < 50 := by norm_num
    have ha0 : 0 ≤ (a - 5) / 50 := div_nonneg (by linarith) h50.le
    have hb0 : 0 ≤ (b - 5) / 50 := div_nonneg (by linarith) h50.le
    have hlt : (a - 5) / 50 < (b - 5) / 50 := div_lt_div_of_pos_right (by linarith) h50
    have hb1 : (b - 5) / 50 ≤ 1 / 10 := by
      rw [div_le_iff₀ h50]; linarith
    refine ⟨_, _, dampDecOf_eq a, dampDecOf_eq b, le_max_right _ _, ?_, ?_⟩
    · rw [max_eq_left (by linarith), max_eq_left (by linarith)]
      linarith
    · rw [max_eq_left (by linarith)]
      norm_num
      linarith
  · rw [dampDecOf_eq]
    norm_num

/-- C6, witness: `dampDec(3) = 1`, and `dampDec(6) < dampDec(8)` inside `[1, 1.1]`. -/
theorem dampDecOf_spec_witness :
    dampDecOf (3 : ℚ) = some 1 ∧
    ∃ ga gb, dampDecOf (6 : ℚ) = some ga ∧ dampDecOf (8 : ℚ) = some gb ∧
      1 ≤ ga ∧ ga < gb ∧ gb ≤ 1.1 :=
  ⟨dampDecOf_spec.1 3 (by norm_num),
   dampDecOf_spec.2.1 6 8 (by norm_num) (by norm_num) (by norm_num)⟩

/-- The base damping in closed form. -/
theorem dampCtl_eq (a : Frame α) :
    dampCtl a = some (constrain (a.DAMP_PARAM + 2 * a.DAMP_INPUT) 0 10) := by
  have h : (1 : α) - -1 ≠ 0 := by norm_num
  rw [dampCtl, map_of_ne _ _ _ _ _ h, Option.map_some']
  congr 3
  norm_num
  ring

/-- C7.  For every damping knob value `d` and CV voltage `v`, `map(v/5, -1, 1, -10, 10)` is
`2*v`, the base damping handed to the mode loop is `constrain(d + 2*v, 0, 10)`, and it lies
in `[0, 10]`. -/
theorem dampCtl_spec (a : Frame α) :
    map (a.DAMP_INPUT / 5.0) (-1) 1 (-10) 10 = some (2 * a.DAMP_INPUT) ∧
    dampCtl a = some (constrain (a.DAMP_PARAM + 2 * a.DAMP_INPUT) 0 10) ∧
    0 ≤ constrain (a.DAMP_PARAM + 2 * a.DAMP_INPUT) 0 10 ∧
    constrain (a.DAMP_PARAM + 2 * a.DAMP_INPUT) 0 10 ≤ 10 ∧
    ∀ (pi : α) (pow : α → α → α) (b : Tonerig_modal α),
      process pi pow b a =
        (dampDecOf (constrain (a.DAMP_PARAM + 2 * a.DAMP_INPUT) 0 10)).bind fun dampDec =>
          (modeLoop pi a.sampleRate a.IN_INPUT (pitchToFreq pow (60 + pitchCtl a))
              (inharmCtl a) dampDec b.inharmonicities (List.finRange NUM_MODES)
              (constrain (a.DAMP_PARAM + 2 * a.DAMP_INPUT) 0 10) 0 b.modes).map fun r =>
            ({ b with modes := r.1 }, 5.0 * r.2) := by
  have h10 : (0 : α) ≤ 10 := by norm_num
  refine ⟨?_, dampCtl_eq a, (constrain_mem _ _ _ h10).1, (constrain_mem _ _ _ h10).2, ?_⟩
  · have h : (1 : α) - -1 ≠ 0 := by norm_num
    rw [map_of_ne _ _ _ _ _ h]
    congr 1
    norm_num
    ring
  · intro pi pow b
    rw [process, dampCtl_eq a, Option.some_bind]

end Controls

section Pitch

/-- C8.  Over the reals `pitchToFreq(p) = 440 * 2^((p - 69)/12)` gives 440 at 69 and 880 at
81, doubles when the pitch goes up by 12, is strictly increasing and strictly positive. -/
theorem pitchToFreq_spec :
    pitchToFreq Real.rpow 69 = 440 ∧ pitchToFreq Real.rpow 81 = 880 ∧
    (∀ p : ℝ, pitchToFreq Real.rpow (p + 12) = 2 * pitchToFreq Real.rpow p) ∧
    StrictMono (pitchToFreq Real.rpow) ∧ ∀ p : ℝ, 0 < pitchToFreq Real.rpow p := by
  have h2 : (0 : ℝ) < 2 := by norm_num
  refine ⟨?_, ?_, fun p => ?_, fun p q hpq => ?_, fun p => ?_⟩
  · simp only [pitchToFreq, Real.rpow_eq_pow]
    norm_num
  · simp only [pitchToFreq, Real.rpow_eq_pow]
    norm_num
  · simp only [pitchToFreq, Real.rpow_eq_pow]
    have e : (p + 12 - 69) / 12 = (p - 69) / 12 + 1 := by ring
    rw [e, Real.rpow_add h2, Real.rpow_one]
    ring
  · simp only [pitchToFreq, Real.rpow_eq_pow]
    have hlt : (p - 69) / 12 < (q - 69) / 12 :=
      div_lt_div_of_pos_right (by linarith) (by norm_num)
    have := Real.rpow_lt_rpow_of_exponent_lt (by norm_num : (1 : ℝ) < 2) hlt
    linarith
  · simp only [pitchToFreq, Real.rpow_eq_pow]
    have := Real.rpow_pos_of_pos h2 ((p - 69) / 12)
    linarith

end Pitch

section BankLoop

variable {α : Type} [LinearOrderedField α]

/-- The indices from `n` on start with `n`. -/
theorem drop_finRange_cons {N n : Nat} (h : n < N) :
    (List.finRange N).drop n = ⟨n, h⟩ :: (List.finRange N).drop (n + 1) := by
  have hl : n < (List.finRange N).length := by rw [List.length_finRange]; exact h
  rw [List.drop_eq_getElem_cons hl, List.getElem_finRange]
  rfl

/-- The indices from `n` on and below `c` start with `n`. -/
theorem drop_take_finRange_cons {N n c : Nat} (h : n < N) (hc : n < c) :
    ((List.finRange N).take c).drop n =
      ⟨n, h⟩ :: ((List.finRange N).take c).drop (n + 1) := by
  have hl : n < ((List.finRange N).take c).length := by
    rw [List.length_take, List.length_finRange]; exact lt_min hc h
  rw [List.drop_eq_getElem_cons hl, List.getElem_take, List.getElem_finRange]
  rfl

/-- Nothing is left of the first `c` elements after dropping `c`. -/
theorem drop_take_self {β : Type} (l : List β) (c : Nat) : (l.take c).drop c = [] := by
  apply List.drop_of_length_le
  rw [List.length_take]
  exact min_le_left _ _

/-- The loop at a mode whose frequency is at least 20000 Hz: the mode is silenced and the loop
ends. -/
theorem modeLoop_cut (pi sr x freq inharm g : α) (inh : Fin NUM_MODES → α)
    (i : Fin NUM_MODES) (rest : List (Fin NUM_MODES)) (d y : α)
    (ms : Fin NUM_MODES → Modal α) (h : 20000 ≤ modeFreq inharm (inh i) i freq) :
    modeLoop pi sr x freq inharm g inh (i :: rest) d y ms =
      some (Function.update ms i { ms i with m := 0 }, y) := by
  rw [modeLoop, if_pos (ge_iff_le.mpr h)]
  norm_num

/-- The loop at a mode whose frequency is below 20000 Hz: the mode is evaluated and the loop
goes on. -/
theorem modeLoop_step (pi sr x freq inharm g : α) (inh : Fin NUM_MODES → α)
    (i : Fin NUM_MODES) (rest : List (Fin NUM_MODES)) (d y : α)
    (ms : Fin NUM_MODES → Modal α) (h : modeFreq inharm (inh i) i freq < 20000) :
    modeLoop pi sr x freq inharm g inh (i :: rest) d y ms =
      (evalMode pi sr x (modeFreq inharm (inh i) i freq) d (ms i)).bind fun r =>
        modeLoop pi sr x freq inharm g inh rest (d * g) (y + r.2)
          (Function.update ms i r.1) := by
  rw [modeLoop, if_neg (not_le.mpr h)]

/-- The mode loop from index `n` on, when `c` is the first index at or above 20000 Hz
(`c = NUM_MODES` when there is none) and the modes from `n` on are still those of the
bank: the running sum it returns, and the modes it leaves at `c` and above. -/
theorem modeLoop_from (pi sr x freq inharm g damp : α) (inh : Fin NUM_MODES → α)
    (bm : Fin NUM_MODES → Modal α) (c : Nat) (hc : c ≤ NUM_MODES)
    (hlt : ∀ j : Fin NUM_MODES, j.val < c → modeFreq inharm (inh j) j freq < 20000)
    (hge : ∀ j : Fin NUM_MODES, j.val = c → 20000 ≤ modeFreq inharm (inh j) j freq)
    (k : Nat) : ∀ (n : Nat) (y : α) (ms : Fin NUM_MODES → Modal α), n + k = c →
      (∀ j : Fin NUM_MODES, n ≤ j.val → ms j = bm j) →
      (modeLoop pi sr x freq inharm g inh ((List.finRange NUM_MODES).drop n)
          (damp * g ^ n) y ms).map Prod.snd =
        (((List.finRange NUM_MODES).take c).drop n).foldlM
          (fun y j => ((evalMode pi sr x (modeFreq inharm (inh j) j freq)
            (damp * g ^ j.val) (bm j)).map Prod.snd).map fun r => y + r) y ∧
      ∀ r, modeLoop pi sr x freq inharm g inh ((List.finRange NUM_MODES).drop n)
          (damp * g ^ n) y ms = some r →
        (∀ j : Fin NUM_MODES, c < j.val → r.1 j = bm j) ∧
        (∀ j : Fin NUM_MODES, j.val = c → r.1 j = { bm j with m := 0 }) := by
  induction k with
  | zero =>
    intro n y ms hn hms
    have hnc : n = c := by omega
    subst hnc
    rw [drop_take_self]
    by_cases hN : n < NUM_MODES
    · rw [drop_finRange_cons hN, modeLoop_cut _ _ _ _ _ _ _ _ _ _ _ _ (hge ⟨n, hN⟩ rfl)]
      refine ⟨rfl, ?_⟩
      intro r hr
      cases hr
      refine ⟨fun j hj => ?_, fun j hj => ?_⟩
      · have hne : j ≠ ⟨n, hN⟩ := fun e => by rw [e] at hj; exact lt_irrefl _ hj
        simp only [Function.update_noteq hne]
        exact hms j hj.le
      · have he : j = ⟨n, hN⟩ := Fin.ext hj
        subst he
        simp only [Function.update_same]
        rw [hms _ (le_refl _)]
    · have hnil : (List.finRange NUM_MODES).drop n = [] := by
        apply List.drop_of_length_le
        rw [List.length_finRange]; omega
      rw [hnil]
      refine ⟨rfl, ?_⟩
      intro r hr
      simp only [modeLoop, Option.some.injEq] at hr
      subst hr
      exact ⟨fun j hj => hms j hj.le, fun j hj => absurd j.isLt (by omega)⟩
  | succ k ih =>
    intro n y ms hn hms
    have hnc : n < c := by omega
    have hN : n < NUM_MODES := by omega
    have hf := hlt ⟨n, hN⟩ hnc
    rw [drop_finRange_cons hN, drop_take_finRange_cons hN hnc,
      modeLoop_step _ _ _ _ _ _ _ _ _ _ _ _ hf, List.foldlM_cons, hms ⟨n, hN⟩ (le_refl _)]
    cases he : evalMode pi sr x (modeFreq inharm (inh ⟨n, hN⟩) n freq) (damp * g ^ n)
        (bm ⟨n, hN⟩) with
    | none =>
      refine ⟨by simp, ?_⟩
      intro r hr
      simp at hr
    | some e =>
      have hms1 : ∀ j : Fin NUM_MODES, n + 1 ≤ j.val →
          Function.update ms ⟨n, hN⟩ e.1 j = bm j := by
        intro j hj
        have hne : j ≠ ⟨n, hN⟩ := fun h => by rw [h] at hj; simp at hj
        rw [Function.update_noteq hne]
        exact hms j (by omega)
      obtain ⟨ih1, ih2⟩ := ih (n + 1) (y + e.2) (Function.update ms ⟨n, hN⟩ e.1)
        (by omega) hms1
      have hp : damp * g ^ n * g = damp * g ^ (n + 1) := by ring
      simp only [Option.some_bind, Option.map_some', hp]
      exact ⟨ih1, ih2⟩

end BankLoop
section BankFrame

variable {α : Type} [LinearOrderedField α]

/-- For a non-zero rate, `setSampleRate(fs)` sets `k = 1 / (2 * fs)`. -/
theorem setSampleRate_of_ne (m : Modal α) (fs : α) (h : fs ≠ 0) :
    Modal.setSampleRate m fs = some { m with k := 1 / (2 * fs) } := by
  have h2 : ((MODAL_OVERSAMPLING : Nat) : α) * fs ≠ 0 := by
    simp [h, MODAL_OVERSAMPLING]
  simp only [Modal.setSampleRate, fdiv_of_ne _ h2, Option.map_some']
  congr 2
  norm_num [h, MODAL_OVERSAMPLING]

/-- With a positive sample rate and a damping that is not negative, the evaluation of a mode has
a value. -/
theorem evalMode_defined (pi sr x f damp : α) (m : Modal α) (hsr : 0 < sr)
    (hd : 0 ≤ damp) : ∃ r, evalMode pi sr x f damp m = some r := by
  have h2 : 2 * sr ≠ 0 := by positivity
  have hk : (0 : α) < 1 / (2 * (2 * sr)) := by positivity
  simp only [evalMode, setParams, setSampleRate_of_ne m _ h2, Option.map_some',
    Option.some_bind]
  refine ⟨_, getNextSample_of_ne _ x ?_⟩
  have := mul_nonneg hk.le hd
  simp only
  linarith

/-- With a positive sample rate, a running damping and a multiplier that are not negative, the
mode loop has a value. -/
theorem modeLoop_defined (pi sr x freq inharm g : α) (inh : Fin NUM_MODES → α)
    (hsr : 0 < sr) (hg : 0 ≤ g) (l : List (Fin NUM_MODES)) :
    ∀ (d y : α) (ms : Fin NUM_MODES → Modal α), 0 ≤ d →
      ∃ r, modeLoop pi sr x freq inharm g inh l d y ms = some r := by
  induction l with
  | nil => intro d y ms _; exact ⟨_, rfl⟩
  | cons i rest ih =>
    intro d y ms hd
    by_cases h : 20000 ≤ modeFreq inharm (inh i) i freq
    · exact ⟨_, modeLoop_cut _ _ _ _ _ _ _ _ _ _ _ _ h⟩
    · obtain ⟨e, he⟩ := evalMode_defined pi sr x (modeFreq inharm (inh i) i freq) d (ms i)
        hsr hd
      obtain ⟨r, hr⟩ := ih (d * g) (y + e.2) (Function.update ms i e.1) (mul_nonneg hd hg)
      refine ⟨r, ?_⟩
      rw [modeLoop_step _ _ _ _ _ _ _ _ _ _ _ _ (not_le.mp h), he, Option.some_bind, hr]

/-- With a positive sample rate every frame has a value: no division of `process` is by
zero. -/
theorem process_defined (pi : α) (pow : α → α → α) (b : Tonerig_modal α) (a : Frame α)
    (hsr : 0 < a.sampleRate) : ∃ r, process pi pow b a = some r := by
  have h10 : (0 : α) ≤ 10 := by norm_num
  have hd := (constrain_mem (a.DAMP_PARAM + 2 * a.DAMP_INPUT) 0 10 h10).1
  have hg : (0 : α) ≤ max (1 + (constrain (a.DAMP_PARAM + 2 * a.DAMP_INPUT) 0 10 - 5) / 50) 1 :=
    le_trans zero_le_one (le_max_right _ _)
  obtain ⟨r, hr⟩ := modeLoop_defined pi a.sampleRate a.IN_INPUT
    (pitchToFreq pow (60 + pitchCtl a)) (inharmCtl a) _ b.inharmonicities hsr hg
    (List.finRange NUM_MODES) _ 0 b.modes hd
  refine ⟨({ b with modes := r.1 }, 5.0 * r.2), ?_⟩
  rw [process, dampCtl_eq, Option.some_bind, dampDecOf_eq, Option.some_bind, hr,
    Option.map_some']

/-- C2.  Let `c` be the smallest mode index whose frequency is at least 20000 Hz (`c = 20`
when there is none).  The output of `process` is 5 times the sum, from 0 and in ascending
order, of the `getNextSample(x)` results of exactly the modes `j < c`, each configured as
the loop configures it; mode `c` and the modes above contribute nothing and their states
`u`, `up`, `lp` are left as they were: they are not advanced. -/
theorem process_output_cutoff (pi : α) (pow : α → α → α) (b : Tonerig_modal α)
    (a : Frame α) (damp g : α) (c : Nat) (hd : dampCtl a = some damp)
    (hg : dampDecOf damp = some g) (hc : c ≤ NUM_MODES)
    (hlt : ∀ j : Fin NUM_MODES, j.val < c →
      modeFreq (inharmCtl a) (b.inharmonicities j) j (pitchToFreq pow (60 + pitchCtl a))
        < 20000)
    (hge : ∀ j : Fin NUM_MODES, j.val = c →
      20000 ≤ modeFreq (inharmCtl a) (b.inharmonicities j) j
        (pitchToFreq pow (60 + pitchCtl a))) :
    (process pi pow b a).map Prod.snd =
        (sumBelow (fun j => (evalMode pi a.sampleRate a.IN_INPUT
            (modeFreq (inharmCtl a) (b.inharmonicities j) j
              (pitchToFreq pow (60 + pitchCtl a)))
            (damp * g ^ j.val) (b.modes j)).map Prod.snd) c).map (fun y => 5.0 * y) ∧
      ∀ b1 y, process pi pow b a = some (b1, y) →
        ∀ j : Fin NUM_MODES, c ≤ j.val →
          (b1.modes j).u = (b.modes j).u ∧ (b1.modes j).up = (b.modes j).up ∧
            (b1.modes j).lp = (b.modes j).lp := by
  obtain ⟨h1, h2⟩ := modeLoop_from pi a.sampleRate a.IN_INPUT
    (pitchToFreq pow (60 + pitchCtl a)) (inharmCtl a) g damp b.inharmonicities b.modes c hc
    hlt hge c 0 0 b.modes (by omega) (fun _ _ => rfl)
  simp only [List.drop_zero, pow_zero, mul_one] at h1 h2
  have hp : process pi pow b a =
      (modeLoop pi a.sampleRate a.IN_INPUT (pitchToFreq pow (60 + pitchCtl a)) (inharmCtl a)
        g b.inharmonicities (List.finRange NUM_MODES) damp 0 b.modes).map fun r =>
          ({ b with modes := r.1 }, 5.0 * r.2) := by
    rw [process, hd, Option.some_bind, hg, Option.some_bind]
  constructor
  · rw [hp, sumBelow, ← h1, Option.map_map, Option.map_map]
    rfl
  · intro b1 y hb j hj
    rw [hp] at hb
    cases hr : modeLoop pi a.sampleRate a.IN_INPUT (pitchToFreq pow (60 + pitchCtl a))
        (inharmCtl a) g b.inharmonicities (List.finRange NUM_MODES) damp 0 b.modes with
    | none => rw [hr] at hb; simp at hb
    | some r =>
      rw [hr] at hb
      simp only [Option.map_some', Option.some.injEq, Prod.mk.injEq] at hb
      obtain ⟨hb1, -⟩ := hb
      subst hb1
      obtain ⟨h3, h4⟩ := h2 r hr
      rcases Nat.lt_or_eq_of_le hj with hlt1 | heq
      · simp only [h3 j hlt1, and_self]
      · simp only [h4 j heq.symm, and_self]

/-- C3.  Every frame with a positive sample rate has a value.  A frame that has a value
leaves the inharmonicity table as it was; and when mode `c` is the first mode whose
frequency is at least 20000 Hz, the frame changes of mode `c` only the inverse mass `m`,
which becomes 0 (`u`, `up`, `lp`, `k`, `omega0`, `sigma0` are unchanged), and it changes no
field of any mode with index above `c`. -/
theorem process_frame_cutoff (pi : α) (pow : α → α → α) (b : Tonerig_modal α)
    (a : Frame α) :
    (0 < a.sampleRate → ∃ r, process pi pow b a = some r) ∧
    ∀ (b1 : Tonerig_modal α) (y : α), process pi pow b a = some (b1, y) →
      b1.inharmonicities = b.inharmonicities ∧
      ∀ c : Fin NUM_MODES,
        (∀ j : Fin NUM_MODES, j.val < c.val →
          modeFreq (inharmCtl a) (b.inharmonicities j) j
            (pitchToFreq pow (60 + pitchCtl a)) < 20000) →
        20000 ≤ modeFreq (inharmCtl a) (b.inharmonicities c) c
          (pitchToFreq pow (60 + pitchCtl a)) →
        ((b1.modes c).m = 0 ∧ (b1.modes c).u = (b.modes c).u ∧
          (b1.modes c).up = (b.modes c).up ∧ (b1.modes c).lp = (b.modes c).lp ∧
          (b1.modes c).k = (b.modes c).k ∧ (b1.modes c).omega0 = (b.modes c).omega0 ∧
          (b1.modes c).sigma0 = (b.modes c).sigma0) ∧
        ∀ j : Fin NUM_MODES, c.val < j.val → b1.modes j = b.modes j := by
  refine ⟨process_defined pi pow b a, fun b1 y h => ?_⟩
  rw [process, dampCtl_eq, Option.some_bind, dampDecOf_eq, Option.some_bind] at h
  cases hr : modeLoop pi a.sampleRate a.IN_INPUT (pitchToFreq pow (60 + pitchCtl a))
      (inharmCtl a) (max (1 + (constrain (a.DAMP_PARAM + 2 * a.DAMP_INPUT) 0 10 - 5) / 50) 1)
      b.inharmonicities (List.finRange NUM_MODES)
      (constrain (a.DAMP_PARAM + 2 * a.DAMP_INPUT) 0 10) 0 b.modes with
  | none => rw [hr] at h; simp at h
  | some r =>
    rw [hr] at h
    simp only [Option.map_some', Option.some.injEq, Prod.mk.injEq] at h
    obtain ⟨hb1, -⟩ := h
    subst hb1
    refine ⟨rfl, fun c hlt hge => ?_⟩
    obtain ⟨-, h2⟩ := modeLoop_from pi a.sampleRate a.IN_INPUT
      (pitchToFreq pow (60 + pitchCtl a)) (inharmCtl a) _
      (constrain (a.DAMP_PARAM + 2 * a.DAMP_INPUT) 0 10) b.inharmonicities b.modes c.val
      c.isLt.le hlt (fun j hj => by rw [Fin.ext hj]; exact hge) c.val 0 0 b.modes (by omega)
      (fun _ _ => rfl)
    simp only [List.drop_zero, pow_zero, mul_one] at h2
    obtain ⟨h3, h4⟩ := h2 r hr
    refine ⟨?_, fun j hj => h3 j hj⟩
    simp only [h4 c rfl, and_self]

end BankFrame

section BankWitness

/-- The first index is 0. -/
theorem take_one_finRange : (List.finRange NUM_MODES).take 1 = [0] := by
  rw [List.finRange_succ]
  rfl

/-- In `unitFrame` on `restBank` mode `j` is at `(j + 1) * 17600` Hz. -/
theorem unitFrame_freq (j : Fin NUM_MODES) :
    modeFreq (inharmCtl unitFrame) (restBank.inharmonicities j) j
      (pitchToFreq pow40 (60 + pitchCtl unitFrame)) = ((j.val + 1 : Nat) : ℚ) * 17600 := by
  norm_num [modeFreq, inharmCtl, restBank, unitFrame, pitchToFreq, pow40, constrain]

/-- In `unitFrame` on `restBank` mode 0 is below 20000 Hz. -/
theorem unitFrame_lt (j : Fin NUM_MODES) (h : j.val < 1) :
    modeFreq (inharmCtl unitFrame) (restBank.inharmonicities j) j
      (pitchToFreq pow40 (60 + pitchCtl unitFrame)) < 20000 := by
  have h0 : j.val = 0 := by omega
  rw [unitFrame_freq, h0]
  norm_num

/-- In `unitFrame` on `restBank` mode 1 is at or above 20000 Hz. -/
theorem unitFrame_ge (j : Fin NUM_MODES) (h : j.val = 1) :
    20000 ≤ modeFreq (inharmCtl unitFrame) (restBank.inharmonicities j) j
      (pitchToFreq pow40 (60 + pitchCtl unitFrame)) := by
  rw [unitFrame_freq, h]
  norm_num

/-- In `unitFrame` the base damping is 0 and the multiplier is 1. -/
theorem unitFrame_damp : dampCtl unitFrame = some 0 ∧ dampDecOf (0 : ℚ) = some 1 := by
  constructor
  · rw [dampCtl_eq]; norm_num [unitFrame, constrain]
  · rw [dampDecOf_eq]; norm_num

/-- The sample of mode 0 of `restBank` in `unitFrame`. -/
theorem unitFrame_evalMode :
    (evalMode (355 / 113 : ℚ) 44100 1 17600 0 (Modal.init (355 / 113))).map Prod.snd =
      some (350979619689962636560 / 2618549188507480541984559) := by
  rw [evalMode, setParams, setSampleRate_of_ne _ _ (by norm_num)]
  simp only [Option.map_some', Option.some_bind]
  rw [getNextSample_of_ne _ _ (by norm_num)]
  norm_num [Modal.specAdvance, Modal.specUn, Modal.init, K, pow2]

/-- C2, witness.  The bank at rest, a fundamental of 17600 Hz and excitation 1: mode 0 is
evaluated, mode 1 is at 35200 Hz, so `c = 1` and the output is 5 times the sample of
mode 0. -/
theorem process_output_cutoff_witness :
    (process (355 / 113) pow40 restBank unitFrame).map Prod.snd =
      some (1754898098449813182800 / 2618549188507480541984559) := by
  rw [(process_output_cutoff (355 / 113) pow40 restBank unitFrame 0 1 1 unitFrame_damp.1
    unitFrame_damp.2 (by norm_num) unitFrame_lt unitFrame_ge).1, sumBelow, take_one_finRange]
  simp only [List.foldlM_cons, List.foldlM_nil, unitFrame_freq]
  have h : evalMode (355 / 113 : ℚ) unitFrame.sampleRate unitFrame.IN_INPUT
      (((((0 : Fin NUM_MODES) : Nat) + 1 : Nat) : ℚ) * 17600)
      (0 * 1 ^ ((0 : Fin NUM_MODES) : Nat)) (restBank.modes 0) =
      evalMode (355 / 113 : ℚ) 44100 1 17600 0 (Modal.init (355 / 113)) := by
    congr 1
    · norm_num
    · norm_num
  rw [h, unitFrame_evalMode]
  norm_num

/-- C3, witness.  The same frame: it has a value, mode 1 is the first mode at or above
20000 Hz, it is silenced with its other fields kept, and the modes above it are
untouched. -/
theorem process_frame_cutoff_witness :
    ∃ b1 y, process (355 / 113) pow40 restBank unitFrame = some (b1, y) ∧
      b1.inharmonicities = restBank.inharmonicities ∧
      (b1.modes 1).m = 0 ∧ (b1.modes 1).u = (restBank.modes 1).u ∧
      ∀ j : Fin NUM_MODES, 1 < j.val → b1.modes j = restBank.modes j := by
  have h := process_frame_cutoff (355 / 113) pow40 restBank unitFrame
  obtain ⟨r, hr⟩ := h.1 (by norm_num [unitFrame])
  have h1 := h.2 r.1 r.2 hr
  have h2 := h1.2 1 unitFrame_lt (unitFrame_ge 1 rfl)
  exact ⟨r.1, r.2, hr, h1.1, h2.1.1, h2.1.2.1, h2.2⟩

end BankWitness

section Table

variable {α : Type} [LinearOrderedField α]

/-- C13, counterexample.  When `rand()` returns 0 the element is `1 - 2 * 0 = 1`, which is
not in `[-1, 1)`. -/
theorem init_table_counterexample :
    (Tonerig_modal.init (355 / 113 : ℚ) 2147483647 (fun _ => 0)).inharmonicities 1 = 1 ∧
    ¬ (Tonerig_modal.init (355 / 113 : ℚ) 2147483647 (fun _ => 0)).inharmonicities 1 < 1 := by
  constructor <;> norm_num [Tonerig_modal.init]

/-- C13, amended.  In the table built by the constructor element 0 is exactly 0, and every
element `i` in 1..19, computed as `1 - 2*(r/RAND_MAX)` from a `rand()` result `r` with
`0 <= r <= RAND_MAX`, lies in the closed interval `[-1, 1]`; the value 1 is reached when
`r = 0`. -/
theorem init_table_range (pi : α) (RAND_MAX : Nat) (rand : Nat → Nat) (hR : 0 < RAND_MAX)
    (hr : ∀ n, rand n ≤ RAND_MAX) :
    (Tonerig_modal.init pi RAND_MAX rand).inharmonicities 0 = 0 ∧
    ∀ i : Fin NUM_MODES, 1 ≤ i.val →
      (Tonerig_modal.init pi RAND_MAX rand).inharmonicities i =
          1 - 2 * ((rand (i.val - 1) : α) / (RAND_MAX : α)) ∧
        -1 ≤ (Tonerig_modal.init pi RAND_MAX rand).inharmonicities i ∧
        (Tonerig_modal.init pi RAND_MAX rand).inharmonicities i ≤ 1 ∧
        (rand (i.val - 1) = 0 →
          (Tonerig_modal.init pi RAND_MAX rand).inharmonicities i = 1) := by
  refine ⟨by simp [Tonerig_modal.init], fun i hi => ?_⟩
  have hi0 : i.val ≠ 0 := by omega
  have hRa : (0 : α) < (RAND_MAX : α) := by exact_mod_cast hR
  have h0 : (0 : α) ≤ (rand (i.val - 1) : α) / (RAND_MAX : α) :=
    div_nonneg (Nat.cast_nonneg _) hRa.le
  have h1 : (rand (i.val - 1) : α) / (RAND_MAX : α) ≤ 1 := by
    rw [div_le_one hRa]
    exact_mod_cast hr (i.val - 1)
  have e : (Tonerig_modal.init pi RAND_MAX rand).inharmonicities i =
      1 - 2 * ((rand (i.val - 1) : α) / (RAND_MAX : α)) := by
    simp [Tonerig_modal.init, hi0]
  refine ⟨e, ?_, ?_, fun hz => ?_⟩
  · rw [e]; linarith
  · rw [e]; linarith
  · rw [e, hz]
    simp

/-- C13, witness: `RAND_MAX = 32767` and a generator that always returns 12345. -/
theorem init_table_range_witness :
    (Tonerig_modal.init (355 / 113 : ℚ) 32767 (fun _ => 12345)).inharmonicities 0 = 0 ∧
    -1 ≤ (Tonerig_modal.init (355 / 113 : ℚ) 32767 (fun _ => 12345)).inharmonicities 7 ∧
    (Tonerig_modal.init (355 / 113 : ℚ) 32767 (fun _ => 12345)).inharmonicities 7 ≤ 1 :=
  have h := init_table_range (355 / 113 : ℚ) 32767 (fun _ => 12345) (by norm_num)
    (fun _ => by norm_num)
  ⟨h.1, (h.2 7 (by decide)).2.1, (h.2 7 (by decide)).2.2.1⟩

/-- C14.  When the inharmonicity amount of the frame is 0, the frequency computed for mode
`i` is exactly `(i + 1) * freq`, whatever the table and the fundamental. -/
theorem modeFreq_harmonic (a : Frame α) (h : inharmCtl a = 0) (b : Tonerig_modal α)
    (freq : α) (i : Fin NUM_MODES) :
    modeFreq (inharmCtl a) (b.inharmonicities i) i freq = ((i.val : α) + 1) * freq := by
  rw [h, modeFreq]
  push_cast
  ring

/-- C14, witness: in `unitFrame` on `restBank` mode 4 is at 5 times the fundamental. -/
theorem modeFreq_harmonic_witness :
    inharmCtl unitFrame = 0 ∧
    modeFreq (inharmCtl unitFrame) (restBank.inharmonicities 4) (4 : Fin NUM_MODES) 440
      = 5 * 440 := by
  have h0 : inharmCtl unitFrame = 0 := by norm_num [inharmCtl, unitFrame, constrain]
  refine ⟨h0, ?_⟩
  rw [modeFreq_harmonic unitFrame h0 restBank 440 4,
    show ((4 : Fin NUM_MODES) : ℕ) = 4 from rfl]
  norm_num

end Table

section Superposition

variable {α : Type} [LinearOrderedField α]

/-- The `advance` of the specification is linear in the state and the force, for shared
parameters. -/
theorem specAdvance_combine (a b f1 f2 : α) (s1 s2 : Modal α) (hk : s2.k = s1.k)
    (hs : s2.sigma0 = s1.sigma0) (hw : s2.omega0 = s1.omega0) (hm : s2.m = s1.m) :
    Modal.specAdvance (Modal.combine a b s1 s2) (a * f1 + b * f2) =
      (Modal.combine a b (Modal.specAdvance s1 f1).1 (Modal.specAdvance s2 f2).1,
        a * (Modal.specAdvance s1 f1).2 + b * (Modal.specAdvance s2 f2).2) := by
  simp only [Modal.specAdvance, Modal.specUn, Modal.combine, hk, hs, hw, hm]
  refine Prod.ext ?_ ?_
  · simp only [Modal.mk.injEq, and_true]
    refine ⟨?_, ?_, ?_⟩ <;> ring
  · simp only
    ring

/-- Calls of `getNextSample` from a scaled state under scaled forces return the scaled
samples and end in the scaled state. -/
theorem run_scale (c : α) (fs : List α) : ∀ s : Modal α,
    Modal.run (Modal.combine c 0 s s) (fs.map fun f => c * f) =
      (Modal.run s fs).map fun r => (Modal.combine c 0 r.1 r.1, r.2.map fun y => c * y) := by
  induction fs with
  | nil => intro s; rfl
  | cons f fs ih =>
    intro s
    by_cases h : 1 + s.k * s.sigma0 = 0
    · have h2 : 1 + (Modal.combine c 0 s s).k * (Modal.combine c 0 s s).sigma0 = 0 := h
      simp only [List.map_cons, Modal.run, getNextSample_of_eq _ _ h,
        getNextSample_of_eq _ _ h2, Option.none_bind, Option.map_none']
    · have h2 : 1 + (Modal.combine c 0 s s).k * (Modal.combine c 0 s s).sigma0 ≠ 0 := h
      have e := specAdvance_combine c 0 f f s s rfl rfl rfl rfl
      have e2 : c * f + 0 * f = c * f := by ring
      rw [e2] at e
      have e3 : c * (Modal.specAdvance s f).2 + 0 * (Modal.specAdvance s f).2 =
          c * (Modal.specAdvance s f).2 := by ring
      simp only [List.map_cons, Modal.run, getNextSample_of_ne _ _ h,
        getNextSample_of_ne _ _ h2, Option.some_bind, e, ih, e3, Option.map_map]
      rfl

/-- C20.  For fixed parameters `getNextSample` is linear from `(u, up, lp, f)` to
`(u', up', lp', output)`: on the state `a*s1 + b*s2` with force `a*f1 + b*f2` it yields `a`
times the result for `(s1, f1)` plus `b` times the result for `(s2, f2)`, and it has a value
exactly when these have one; from the zero state, scaling the whole force sequence by `c`
scales every output sample by `c`. -/
theorem getNextSample_linear (a b f1 f2 : α) (s1 s2 : Modal α) (hk : s2.k = s1.k)
    (hs : s2.sigma0 = s1.sigma0) (hw : s2.omega0 = s1.omega0) (hm : s2.m = s1.m) :
    Modal.getNextSample (Modal.combine a b s1 s2) (a * f1 + b * f2) =
        ((Modal.getNextSample s1 f1).bind fun r1 =>
          (Modal.getNextSample s2 f2).map fun r2 =>
            (Modal.combine a b r1.1 r2.1, a * r1.2 + b * r2.2)) ∧
      ∀ (c : α) (fs : List α), s1.u = 0 → s1.up = 0 → s1.lp = 0 →
        (Modal.run s1 (fs.map fun f => c * f)).map Prod.snd =
          (Modal.run s1 fs).map fun r => r.2.map fun y => c * y := by
  constructor
  · by_cases h : 1 + s1.k * s1.sigma0 = 0
    · have h2 : 1 + (Modal.combine a b s1 s2).k * (Modal.combine a b s1 s2).sigma0 = 0 := h
      rw [getNextSample_of_eq _ _ h, getNextSample_of_eq _ _ h2]
      rfl
    · have h2 : 1 + (Modal.combine a b s1 s2).k * (Modal.combine a b s1 s2).sigma0 ≠ 0 := h
      have h3 : 1 + s2.k * s2.sigma0 ≠ 0 := by rw [hk, hs]; exact h
      rw [getNextSample_of_ne _ _ h, getNextSample_of_ne _ _ h2, getNextSample_of_ne _ _ h3,
        specAdvance_combine a b f1 f2 s1 s2 hk hs hw hm]
      rfl
  · intro c fs hu hup hlp
    have e : Modal.combine c 0 s1 s1 = s1 := by
      obtain ⟨u, up, lp, m, omega0, sigma0, k⟩ := s1
      simp only at hu hup hlp
      subst hu hup hlp
      simp [Modal.combine]
    have h := run_scale c fs s1
    rw [e] at h
    rw [h, Option.map_map]
    rfl

/-- C20, witness: two resonators with the default parameters at `k = 1/88200`. -/
theorem getNextSample_linear_witness :
    Modal.getNextSample
        (Modal.combine 2 3
          ({ u := 1, up := 0, lp := 0, m := 2000, omega0 := 2764, sigma0 := 2,
             k := 1 / 88200 } : Modal ℚ)
          { u := 0, up := 1, lp := 1, m := 2000, omega0 := 2764, sigma0 := 2,
            k := 1 / 88200 }) (2 * 1 + 3 * 5) =
      ((Modal.getNextSample
          ({ u := 1, up := 0, lp := 0, m := 2000, omega0 := 2764, sigma0 := 2,
             k := 1 / 88200 } : Modal ℚ) 1).bind fun r1 =>
        (Modal.getNextSample
          ({ u := 0, up := 1, lp := 1, m := 2000, omega0 := 2764, sigma0 := 2,
             k := 1 / 88200 } : Modal ℚ) 5).map fun r2 =>
          (Modal.combine 2 3 r1.1 r2.1, 2 * r1.2 + 3 * r2.2)) :=
  (getNextSample_linear (2 : ℚ) 3 1 5
    { u := 1, up := 0, lp := 0, m := 2000, omega0 := 2764, sigma0 := 2, k := 1 / 88200 }
    { u := 0, up := 1, lp := 1, m := 2000, omega0 := 2764, sigma0 := 2, k := 1 / 88200 }
    rfl rfl rfl rfl).1

end Superposition

section BankModes

variable {α : Type} [LinearOrderedField α]

/-- For a non-zero sample rate the block `Set parameters` yields the configured mode. -/
theorem setParams_of_ne (pi sr f damp : α) (m : Modal α) (hsr : sr ≠ 0) :
    setParams pi sr f damp m = some (configured pi sr f damp m) := by
  have h2 : 2 * sr ≠ 0 := mul_ne_zero two_ne_zero hsr
  simp only [setParams, setSampleRate_of_ne m _ h2, Option.map_some', configured, pow2, K]
  congr 2
  ring

/-- For a zero sample rate the block `Set parameters` divides by zero. -/
theorem setParams_zero (pi f damp : α) (m : Modal α) : setParams pi 0 f damp m = none := by
  simp [setParams, Modal.setSampleRate, fdiv]

/-- The evaluation of a mode when no division is by zero: the configured mode is advanced. -/
theorem evalMode_of_ne (pi sr x f damp : α) (m : Modal α) (hsr : sr ≠ 0)
    (hd : 1 + 1 / (2 * (2 * sr)) * damp ≠ 0) :
    evalMode pi sr x f damp m = some (Modal.specAdvance (configured pi sr f damp m) x) := by
  rw [evalMode, setParams_of_ne pi sr f damp m hsr, Option.some_bind]
  exact getNextSample_of_ne _ x hd

/-- An evaluation that has a value met no division by zero and advanced the configured
mode. -/
theorem evalMode_eq_some (pi sr x f damp : α) (m : Modal α) (e : Modal α × α)
    (h : evalMode pi sr x f damp m = some e) :
    sr ≠ 0 ∧ 1 + 1 / (2 * (2 * sr)) * damp ≠ 0 ∧
      e = Modal.specAdvance (configured pi sr f damp m) x := by
  have hsr : sr ≠ 0 := by
    intro h0
    rw [h0, evalMode, setParams_zero] at h
    exact Option.noConfusion h
  have hd : 1 + 1 / (2 * (2 * sr)) * damp ≠ 0 := by
    intro h0
    rw [evalMode, setParams_of_ne pi sr f damp m hsr, Option.some_bind,
      getNextSample_of_eq _ x h0] at h
    exact Option.noConfusion h
  rw [evalMode_of_ne pi sr x f damp m hsr hd] at h
  exact ⟨hsr, hd, (Option.some.inj h).symm⟩

/-- The mode loop from index `n` on, when `c` is the first index at or above 20000 Hz and the
modes from `n` on are still those of the bank: it leaves the modes below `n` alone, and each
mode from `n` up to `c` is left as its evaluation with the damping `damp * g ^ j` leaves
it. -/
theorem modeLoop_below (pi sr x freq inharm g damp : α) (inh : Fin NUM_MODES → α)
    (bm : Fin NUM_MODES → Modal α) (c : Nat) (hc : c ≤ NUM_MODES)
    (hlt : ∀ j : Fin NUM_MODES, j.val < c → modeFreq inharm (inh j) j freq < 20000)
    (hge : ∀ j : Fin NUM_MODES, j.val = c → 20000 ≤ modeFreq inharm (inh j) j freq)
    (k : Nat) : ∀ (n : Nat) (y : α) (ms : Fin NUM_MODES → Modal α), n + k = c →
      (∀ j : Fin NUM_MODES, n ≤ j.val → ms j = bm j) →
      ∀ r, modeLoop pi sr x freq inharm g inh ((List.finRange NUM_MODES).drop n)
          (damp * g ^ n) y ms = some r →
        (∀ j : Fin NUM_MODES, j.val < n → r.1 j = ms j) ∧
        (∀ j : Fin NUM_MODES, n ≤ j.val → j.val < c →
          ∃ e, evalMode pi sr x (modeFreq inharm (inh j) j freq) (damp * g ^ j.val) (bm j)
              = some e ∧ r.1 j = e.1) := by
  induction k with
  | zero =>
    intro n y ms hn hms r hr
    have hnc : n = c := by omega
    subst hnc
    refine ⟨fun j hj => ?_, fun j h1 h2 => absurd h2 (by omega)⟩
    by_cases hN : n < NUM_MODES
    · rw [drop_finRange_cons hN, modeLoop_cut _ _ _ _ _ _ _ _ _ _ _ _ (hge ⟨n, hN⟩ rfl)] at hr
      cases hr
      have hne : j ≠ ⟨n, hN⟩ := fun e => by rw [e] at hj; exact lt_irrefl _ hj
      simp only [Function.update_noteq hne]
    · have hnil : (List.finRange NUM_MODES).drop n = [] := by
        apply List.drop_of_length_le
        rw [List.length_finRange]; omega
      rw [hnil] at hr
      simp only [modeLoop, Option.some.injEq] at hr
      subst hr
      rfl
  | succ k ih =>
    intro n y ms hn hms r hr
    have hnc : n < c := by omega
    have hN : n < NUM_MODES := by omega
    have hf := hlt ⟨n, hN⟩ hnc
    rw [drop_finRange_cons hN, modeLoop_step _ _ _ _ _ _ _ _ _ _ _ _ hf,
      hms ⟨n, hN⟩ (le_refl _)] at hr
    cases he : evalMode pi sr x (modeFreq inharm (inh ⟨n, hN⟩) n freq) (damp * g ^ n)
        (bm ⟨n, hN⟩) with
    | none =>
      rw [he] at hr
      simp at hr
    | some e =>
      rw [he, Option.some_bind] at hr
      have hms1 : ∀ j : Fin NUM_MODES, n + 1 ≤ j.val →
          Function.update ms ⟨n, hN⟩ e.1 j = bm j := by
        intro j hj
        have hne : j ≠ ⟨n, hN⟩ := fun h => by rw [h] at hj; simp at hj
        rw [Function.update_noteq hne]
        exact hms j (by omega)
      have hp : damp * g ^ n * g = damp * g ^ (n + 1) := by ring
      rw [hp] at hr
      obtain ⟨ih1, ih2⟩ := ih (n + 1) (y + e.2) (Function.update ms ⟨n, hN⟩ e.1)
        (by omega) hms1 r hr
      refine ⟨fun j hj => ?_, fun j h1 h2 => ?_⟩
      · have hne : j ≠ ⟨n, hN⟩ := fun h => by rw [h] at hj; exact lt_irrefl _ hj
        rw [ih1 j (by omega), Function.update_noteq hne]
      · rcases Nat.lt_or_eq_of_le h1 with hlt1 | heq
        · exact ih2 j hlt1 h2
        · have hj : j = ⟨n, hN⟩ := Fin.ext heq.symm
          subst hj
          exact ⟨e, he, by rw [ih1 _ (Nat.lt_succ_self _), Function.update_same]⟩

/-- The running sum over the indices from `n` up to `c` when each of their samples has a
value. -/
theorem foldlM_below (out : Fin NUM_MODES → Option α) (v : Fin NUM_MODES → α) (c : Nat)
    (hc : c ≤ NUM_MODES) (hv : ∀ j : Fin NUM_MODES, j.val < c → out j = some (v j))
    (k : Nat) : ∀ (n : Nat) (y : α), n + k = c →
      (((List.finRange NUM_MODES).take c).drop n).foldlM
          (fun y j => (out j).map fun r => y + r) y =
        some (y + ((((List.finRange NUM_MODES).take c).drop n).map v).sum) := by
  induction k with
  | zero =>
    intro n y hn
    have hnc : n = c := by omega
    subst hnc
    rw [drop_take_self]
    simp
  | succ k ih =>
    intro n y hn
    have hnc : n < c := by omega
    have hN : n < NUM_MODES := by omega
    rw [drop_take_finRange_cons hN hnc, List.foldlM_cons, hv ⟨n, hN⟩ hnc]
    simp only [Option.map_some', Option.bind_eq_bind, Option.some_bind, List.map_cons,
      List.sum_cons]
    rw [ih (n + 1) _ (by omega), add_assoc]

end BankModes

section BankChar

variable {α : Type} [LinearOrderedField α]

/-- The frame in full when `c` is the first index at or above 20000 Hz (`c = NUM_MODES` when
there is none) and the evaluation of each mode `j < c` has the value `ev j`: the output is 5
times the sum of the samples of the modes below `c`, these modes are left as their
evaluation leaves them, mode `c` is silenced, the modes above `c` and the table are
untouched. -/
theorem process_char (pi : α) (pow : α → α → α) (b : Tonerig_modal α) (a : Frame α)
    (damp g : α) (c : Nat) (hd : dampCtl a = some damp) (hg : dampDecOf damp = some g)
    (hc : c ≤ NUM_MODES)
    (hlt : ∀ j : Fin NUM_MODES, j.val < c →
      modeFreq (inharmCtl a) (b.inharmonicities j) j (pitchToFreq pow (60 + pitchCtl a))
        < 20000)
    (hge : ∀ j : Fin NUM_MODES, j.val = c →
      20000 ≤ modeFreq (inharmCtl a) (b.inharmonicities j) j
        (pitchToFreq pow (60 + pitchCtl a)))
    (ev : Fin NUM_MODES → Modal α × α)
    (hev : ∀ j : Fin NUM_MODES, j.val < c →
      evalMode pi a.sampleRate a.IN_INPUT
        (modeFreq (inharmCtl a) (b.inharmonicities j) j (pitchToFreq pow (60 + pitchCtl a)))
        (damp * g ^ j.val) (b.modes j) = some (ev j)) :
    ∃ b1, process pi pow b a =
        some (b1, 5 * (((List.finRange NUM_MODES).take c).map fun j => (ev j).2).sum) ∧
      b1.inharmonicities = b.inharmonicities ∧
      (∀ j : Fin NUM_MODES, j.val < c → b1.modes j = (ev j).1) ∧
      (∀ j : Fin NUM_MODES, j.val = c → b1.modes j = { b.modes j with m := 0 }) ∧
      ∀ j : Fin NUM_MODES, c < j.val → b1.modes j = b.modes j := by
  obtain ⟨h1, h2⟩ := modeLoop_from pi a.sampleRate a.IN_INPUT
    (pitchToFreq pow (60 + pitchCtl a)) (inharmCtl a) g damp b.inharmonicities b.modes c hc
    hlt hge c 0 0 b.modes (by omega) (fun _ _ => rfl)
  have h3 := foldlM_below
    (fun j => (evalMode pi a.sampleRate a.IN_INPUT
      (modeFreq (inharmCtl a) (b.inharmonicities j) j (pitchToFreq pow (60 + pitchCtl a)))
      (damp * g ^ j.val) (b.modes j)).map Prod.snd)
    (fun j => (ev j).2) c hc (fun j hj => by simp only [hev j hj, Option.map_some'])
    c 0 0 (by omega)
  simp only [List.drop_zero, pow_zero, mul_one, zero_add] at h1 h2 h3
  rw [h3] at h1
  obtain ⟨r, hr, hr2⟩ := Option.map_eq_some'.mp h1
  obtain ⟨h4, h5⟩ := h2 r hr
  obtain ⟨-, h6⟩ := modeLoop_below pi a.sampleRate a.IN_INPUT
    (pitchToFreq pow (60 + pitchCtl a)) (inharmCtl a) g damp b.inharmonicities b.modes c hc
    hlt hge c 0 0 b.modes (by omega) (fun _ _ => rfl) r
    (by simpa only [List.drop_zero, pow_zero, mul_one] using hr)
  refine ⟨{ b with modes := r.1 }, ?_, rfl, fun j hj => ?_, h5, h4⟩
  · rw [process, hd, Option.some_bind, hg, Option.some_bind, hr, Option.map_some', hr2]
    congr 2
    norm_num
  · obtain ⟨e, he, hje⟩ := h6 j (Nat.zero_le _) hj
    rw [hev j hj] at he
    show r.1 j = (ev j).1
    rw [hje, ← Option.some.inj he]

/-- There is a first index at or above 20000 Hz, or none at all. -/
theorem exists_cutoff (fr : Fin NUM_MODES → α) :
    ∃ c : Nat, c ≤ NUM_MODES ∧ (∀ j : Fin NUM_MODES, j.val < c → fr j < 20000) ∧
      ∀ j : Fin NUM_MODES, j.val = c → 20000 ≤ fr j := by
  classical
  by_cases h : ∃ n : Nat, ∃ hn : n < NUM_MODES, 20000 ≤ fr ⟨n, hn⟩
  · refine ⟨Nat.find h, ?_, fun j hj => ?_, fun j hj => ?_⟩
    · obtain ⟨hn, -⟩ := Nat.find_spec h
      exact hn.le
    · by_contra hcon
      exact Nat.find_min h hj ⟨j.isLt, not_lt.mp hcon⟩
    · obtain ⟨hn, hf⟩ := Nat.find_spec h
      have : j = ⟨Nat.find h, hn⟩ := Fin.ext hj
      rw [this]
      exact hf
  · refine ⟨NUM_MODES, le_refl _, fun j _ => ?_, fun j hj => absurd j.isLt (by omega)⟩
    by_contra hcon
    exact h ⟨j.val, j.isLt, not_lt.mp hcon⟩

end BankChar

section BankParams

variable {α : Type} [LinearOrderedField α]

/-- The base damping of a frame lies in `[0, 10]`. -/
theorem dampCtl_mem (a : Frame α) (damp : α) (hd : dampCtl a = some damp) :
    0 ≤ damp ∧ damp ≤ 10 := by
  rw [dampCtl_eq] at hd
  rw [← Option.some.inj hd]
  exact constrain_mem _ _ _ (by norm_num)

/-- The damping-growth multiplier is at least 1. -/
theorem dampDecOf_ge_one (damp g : α) (hg : dampDecOf damp = some g) : 1 ≤ g := by
  rw [dampDecOf_eq] at hg
  rw [← Option.some.inj hg]
  exact le_max_right _ _

/-- The running damping `damp * g ^ i` does not decrease with the mode index. -/
theorem damp_pow_mono (damp g : α) (hd : 0 ≤ damp) (hg : 1 ≤ g) (i j : Nat) (hij : i ≤ j) :
    damp * g ^ i ≤ damp * g ^ j :=
  mul_le_mul_of_nonneg_left (pow_le_pow_right₀ hg hij) hd

/-- In a frame that has a value, every mode below the first index at or above 20000 Hz is
left as its evaluation with the damping `damp * g ^ j` leaves it. -/
theorem process_modes_below (pi : α) (pow : α → α → α) (b : Tonerig_modal α) (a : Frame α)
    (damp g : α) (c : Nat) (hd : dampCtl a = some damp) (hg : dampDecOf damp = some g)
    (hc : c ≤ NUM_MODES)
    (hlt : ∀ j : Fin NUM_MODES, j.val < c →
      modeFreq (inharmCtl a) (b.inharmonicities j) j (pitchToFreq pow (60 + pitchCtl a))
        < 20000)
    (hge : ∀ j : Fin NUM_MODES, j.val = c →
      20000 ≤ modeFreq (inharmCtl a) (b.inharmonicities j) j
        (pitchToFreq pow (60 + pitchCtl a)))
    (b1 : Tonerig_modal α) (y : α) (h : process pi pow b a = some (b1, y))
    (j : Fin NUM_MODES) (hj : j.val < c) :
    a.sampleRate ≠ 0 ∧ 1 + 1 / (2 * (2 * a.sampleRate)) * (damp * g ^ j.val) ≠ 0 ∧
      b1.modes j = (Modal.specAdvance (configured pi a.sampleRate
        (modeFreq (inharmCtl a) (b.inharmonicities j) j (pitchToFreq pow (60 + pitchCtl a)))
        (damp * g ^ j.val) (b.modes j)) a.IN_INPUT).1 := by
  rw [process, hd, Option.some_bind, hg, Option.some_bind] at h
  obtain ⟨r, hr, hr2⟩ := Option.map_eq_some'.mp h
  obtain ⟨-, h6⟩ := modeLoop_below pi a.sampleRate a.IN_INPUT
    (pitchToFreq pow (60 + pitchCtl a)) (inharmCtl a) g damp b.inharmonicities b.modes c hc
    hlt hge c 0 0 b.modes (by omega) (fun _ _ => rfl) r
    (by simpa only [List.drop_zero, pow_zero, mul_one] using hr)
  obtain ⟨e, he, hje⟩ := h6 j (Nat.zero_le _) hj
  obtain ⟨h1, h2, h3⟩ := evalMode_eq_some _ _ _ _ _ _ _ he
  refine ⟨h1, h2, ?_⟩
  have hb1 : b1 = { b with modes := r.1 } := (congrArg Prod.fst hr2).symm
  rw [hb1]
  show r.1 j = _
  rw [hje, h3]

/-- C15.  With base damping `d` and growth multiplier `g` of the frame, and `c` the first
index at or above 20000 Hz: `d >= 0`, `g >= 1`, so `d * g^i` does not decrease with `i`;
and in every frame that has a value (every frame with a positive sample rate has one) each
evaluated mode `j < c` is advanced with `sigma0 = d * g^j` and keeps it. -/
theorem process_damping (pi : α) (pow : α → α → α) (b : Tonerig_modal α) (a : Frame α)
    (damp g : α) (c : Nat) (hd : dampCtl a = some damp) (hg : dampDecOf damp = some g)
    (hc : c ≤ NUM_MODES)
    (hlt : ∀ j : Fin NUM_MODES, j.val < c →
      modeFreq (inharmCtl a) (b.inharmonicities j) j (pitchToFreq pow (60 + pitchCtl a))
        < 20000)
    (hge : ∀ j : Fin NUM_MODES, j.val = c →
      20000 ≤ modeFreq (inharmCtl a) (b.inharmonicities j) j
        (pitchToFreq pow (60 + pitchCtl a))) :
    0 ≤ damp ∧ 1 ≤ g ∧ (∀ i j : Nat, i ≤ j → damp * g ^ i ≤ damp * g ^ j) ∧
    (0 < a.sampleRate → ∃ r, process pi pow b a = some r) ∧
    ∀ (b1 : Tonerig_modal α) (y : α), process pi pow b a = some (b1, y) →
      ∀ j : Fin NUM_MODES, j.val < c →
        (∃ e, evalMode pi a.sampleRate a.IN_INPUT
            (modeFreq (inharmCtl a) (b.inharmonicities j) j
              (pitchToFreq pow (60 + pitchCtl a)))
            (damp * g ^ j.val) (b.modes j) = some e ∧ b1.modes j = e.1) ∧
          (b1.modes j).sigma0 = damp * g ^ j.val := by
  have hd0 := (dampCtl_mem a damp hd).1
  have hg1 := dampDecOf_ge_one damp g hg
  refine ⟨hd0, hg1, damp_pow_mono damp g hd0 hg1, process_defined pi pow b a,
    fun b1 y h j hj => ?_⟩
  obtain ⟨h1, h2, h3⟩ := process_modes_below pi pow b a damp g c hd hg hc hlt hge b1 y h j hj
  refine ⟨⟨_, evalMode_of_ne _ _ _ _ _ _ h1 h2, h3⟩, ?_⟩
  rw [h3]
  rfl

/-- C15, witness.  In `unitFrame` on `restBank` with a fundamental of 17600 Hz the frame has
a value and mode 0, the only evaluated mode, ends with `sigma0 = 0 * 1 ^ 0`. -/
theorem process_damping_witness :
    ∃ b1 y, process (355 / 113) pow40 restBank unitFrame = some (b1, y) ∧
      (b1.modes 0).sigma0 = 0 * 1 ^ 0 := by
  have h := process_damping (355 / 113) pow40 restBank unitFrame 0 1 1 unitFrame_damp.1
    unitFrame_damp.2 (by norm_num) unitFrame_lt unitFrame_ge
  obtain ⟨r, hr⟩ := h.2.2.2.1 (by norm_num [unitFrame])
  exact ⟨r.1, r.2, hr, (h.2.2.2.2 r.1 r.2 hr 0 (by decide)).2⟩

/-- C16.  `setSampleRate(fs)` sets `k = 1 / (MODAL_OVERSAMPLING * fs)` with
`MODAL_OVERSAMPLING = 2`, the bank passes `2 * sr`, and with `sr > 0` the frame has a value
in which every evaluated mode with frequency `f` has been advanced with, and keeps,
`omega0 = 2*pi*f`, `m = omega0^2 / 7643.022` and `k = 1 / (4 * sr) > 0`. -/
theorem process_mode_params (pi : α) (pow : α → α → α) (b : Tonerig_modal α) (a : Frame α)
    (damp g : α) (c : Nat) (hd : dampCtl a = some damp) (hg : dampDecOf damp = some g)
    (hc : c ≤ NUM_MODES)
    (hlt : ∀ j : Fin NUM_MODES, j.val < c →
      modeFreq (inharmCtl a) (b.inharmonicities j) j (pitchToFreq pow (60 + pitchCtl a))
        < 20000)
    (hge : ∀ j : Fin NUM_MODES, j.val = c →
      20000 ≤ modeFreq (inharmCtl a) (b.inharmonicities j) j
        (pitchToFreq pow (60 + pitchCtl a)))
    (hsr : 0 < a.sampleRate) :
    MODAL_OVERSAMPLING = 2 ∧
    (∀ (s : Modal α) (fs : α), fs ≠ 0 →
      Modal.setSampleRate s fs =
        some { s with k := 1 / ((MODAL_OVERSAMPLING : α) * fs) }) ∧
    (∀ (f d : α) (m : Modal α), setParams pi a.sampleRate f d m =
      (m.setSampleRate (2 * a.sampleRate)).map fun m1 =>
        { m1 with omega0 := 2 * pi * f, sigma0 := d, m := (2 * pi * f) ^ 2 / 7643.022 }) ∧
    ∃ b1 y, process pi pow b a = some (b1, y) ∧
      ∀ j : Fin NUM_MODES, j.val < c →
        b1.modes j = (Modal.specAdvance (configured pi a.sampleRate
            (modeFreq (inharmCtl a) (b.inharmonicities j) j
              (pitchToFreq pow (60 + pitchCtl a)))
            (damp * g ^ j.val) (b.modes j)) a.IN_INPUT).1 ∧
        (b1.modes j).omega0 = 2 * pi * modeFreq (inharmCtl a) (b.inharmonicities j) j
            (pitchToFreq pow (60 + pitchCtl a)) ∧
        (b1.modes j).m = (b1.modes j).omega0 ^ 2 / 7643.022 ∧
        (b1.modes j).k = 1 / (4 * a.sampleRate) ∧ 0 < (b1.modes j).k := by
  refine ⟨rfl, fun s fs hfs => ?_, fun f d m => ?_, ?_⟩
  · rw [setSampleRate_of_ne s fs hfs]
    simp [Nat.cast_ofNat, MODAL_OVERSAMPLING]
  · simp only [setParams, pow2, K]
    congr 1
    funext m1
    congr 1
    ring
  · obtain ⟨r, hr⟩ := process_defined pi pow b a hsr
    refine ⟨r.1, r.2, hr, fun j hj => ?_⟩
    obtain ⟨-, -, h3⟩ :=
      process_modes_below pi pow b a damp g c hd hg hc hlt hge r.1 r.2 hr j hj
    have hk : (1 : α) / (2 * (2 * a.sampleRate)) = 1 / (4 * a.sampleRate) := by ring
    refine ⟨h3, ?_, ?_, ?_, ?_⟩
    · rw [h3]; rfl
    · rw [h3]; rfl
    · rw [h3]; exact hk
    · rw [h3]
      show (0 : α) < 1 / (2 * (2 * a.sampleRate))
      positivity

/-- C16, witness.  In `unitFrame` on `restBank` with a fundamental of 17600 Hz mode 0 ends
with `k = 1 / (4 * 44100)`. -/
theorem process_mode_params_witness :
    ∃ b1 y, process (355 / 113) pow40 restBank unitFrame = some (b1, y) ∧
      (b1.modes 0).k = 1 / (4 * 44100) := by
  obtain ⟨b1, y, h, hj⟩ := (process_mode_params (355 / 113) pow40 restBank unitFrame 0 1 1
    unitFrame_damp.1 unitFrame_damp.2 (by norm_num) unitFrame_lt unitFrame_ge
    (by norm_num [unitFrame])).2.2.2
  exact ⟨b1, y, h, (hj 0 (by decide)).2.2.2.1⟩

/-- C19.  With a positive sample rate no division of the frame is by zero: the two calls of
`map` divide by `10 - 5` and by `1 - (-1)` and have a value for every argument, the frame
has a value, and every evaluated mode is advanced with, and keeps, `sigma0 >= 0` and
`k > 0`, so that the denominator `1 + k*sigma0` of `getNextSample` is at least 1. -/
theorem process_division_safe (pi : α) (pow : α → α → α) (b : Tonerig_modal α)
    (a : Frame α) (hsr : 0 < a.sampleRate) :
    ((10.0 : α) - 5 ≠ 0 ∧ (1 : α) - -1 ≠ 0) ∧
    (∀ x : α, ∃ v, map x 5 10.0 1 1.1 = some v) ∧
    (∀ x : α, ∃ v, map x (-1) 1 (-10) 10 = some v) ∧
    ∃ damp g b1 y, dampCtl a = some damp ∧ dampDecOf damp = some g ∧
      process pi pow b a = some (b1, y) ∧
      ∀ c : Nat, c ≤ NUM_MODES →
        (∀ j : Fin NUM_MODES, j.val < c →
          modeFreq (inharmCtl a) (b.inharmonicities j) j
            (pitchToFreq pow (60 + pitchCtl a)) < 20000) →
        (∀ j : Fin NUM_MODES, j.val = c →
          20000 ≤ modeFreq (inharmCtl a) (b.inharmonicities j) j
            (pitchToFreq pow (60 + pitchCtl a))) →
        ∀ j : Fin NUM_MODES, j.val < c →
          b1.modes j = (Modal.specAdvance (configured pi a.sampleRate
            (modeFreq (inharmCtl a) (b.inharmonicities j) j
              (pitchToFreq pow (60 + pitchCtl a)))
            (damp * g ^ j.val) (b.modes j)) a.IN_INPUT).1 ∧
          (b1.modes j).sigma0 = damp * g ^ j.val ∧
          0 ≤ (b1.modes j).sigma0 ∧ 0 < (b1.modes j).k ∧
          1 ≤ 1 + (b1.modes j).k * (b1.modes j).sigma0 ∧
          1 + (b1.modes j).k * (b1.modes j).sigma0 ≠ 0 := by
  have h5 : (10.0 : α) - 5 ≠ 0 := by norm_num
  have h2 : (1 : α) - -1 ≠ 0 := by norm_num
  refine ⟨⟨h5, h2⟩, fun x => ⟨_, map_of_ne x 5 10.0 1 1.1 h5⟩,
    fun x => ⟨_, map_of_ne x (-1) 1 (-10) 10 h2⟩, ?_⟩
  obtain ⟨r, hr⟩ := process_defined pi pow b a hsr
  refine ⟨_, _, r.1, r.2, dampCtl_eq a, dampDecOf_eq _, hr, fun c hc hlt hge j hj => ?_⟩
  obtain ⟨-, -, h3⟩ := process_modes_below pi pow b a _ _ c (dampCtl_eq a) (dampDecOf_eq _)
    hc hlt hge r.1 r.2 hr j hj
  have hd0 := (dampCtl_mem a _ (dampCtl_eq a)).1
  have hg1 := dampDecOf_ge_one _ _ (dampDecOf_eq (constrain (a.DAMP_PARAM + 2 * a.DAMP_INPUT) 0 10))
  have hs : 0 ≤ constrain (a.DAMP_PARAM + 2 * a.DAMP_INPUT) 0 10 *
      max (1 + (constrain (a.DAMP_PARAM + 2 * a.DAMP_INPUT) 0 10 - 5) / 50) 1 ^ j.val :=
    mul_nonneg hd0 (pow_nonneg (le_trans zero_le_one hg1) _)
  have hk : (0 : α) < 1 / (2 * (2 * a.sampleRate)) := by positivity
  have hks := mul_nonneg hk.le hs
  have hσ : (r.1.modes j).sigma0 = constrain (a.DAMP_PARAM + 2 * a.DAMP_INPUT) 0 10 *
      max (1 + (constrain (a.DAMP_PARAM + 2 * a.DAMP_INPUT) 0 10 - 5) / 50) 1 ^ j.val := by
    rw [h3]; rfl
  have hkk : (r.1.modes j).k = 1 / (2 * (2 * a.sampleRate)) := by
    rw [h3]; rfl
  refine ⟨h3, hσ, ?_, ?_, ?_, ?_⟩
  · rw [hσ]; exact hs
  · rw [hkk]; exact hk
  · rw [hσ, hkk]
    linarith
  · rw [hσ, hkk]
    linarith

/-- C19, witness.  In `unitFrame` on `restBank` with a fundamental of 17600 Hz the frame has
a value and mode 0 ends with a denominator `1 + k*sigma0` of at least 1. -/
theorem process_division_safe_witness :
    ∃ b1 y, process (355 / 113) pow40 restBank unitFrame = some (b1, y) ∧
      1 ≤ 1 + (b1.modes 0).k * (b1.modes 0).sigma0 := by
  obtain ⟨damp, g, b1, y, -, -, h, hj⟩ := (process_division_safe (355 / 113) pow40 restBank
    unitFrame (by norm_num [unitFrame])).2.2.2
  exact ⟨b1, y, h, (hj 1 (by norm_num) unitFrame_lt unitFrame_ge 0 (by decide)).2.2.2.2.1⟩

end BankParams

section RealFrames

/-- Over the reals the pitch-to-frequency map is strictly increasing. -/
theorem pitchToFreq_strictMono : StrictMono (pitchToFreq Real.rpow) := by
  intro p q hpq
  simp only [pitchToFreq, Real.rpow_eq_pow]
  have hlt : (p - 69) / 12 < (q - 69) / 12 :=
    div_lt_div_of_pos_right (by linarith) (by norm_num)
  have := Real.rpow_lt_rpow_of_exponent_lt (by norm_num : (1 : ℝ) < 2) hlt
  linarith

/-- Over the reals the pitch-to-frequency map is positive. -/
theorem pitchToFreq_pos (p : ℝ) : 0 < pitchToFreq Real.rpow p := by
  simp only [pitchToFreq, Real.rpow_eq_pow]
  have := Real.rpow_pos_of_pos (by norm_num : (0 : ℝ) < 2) ((p - 69) / 12)
  linarith

/-- Pitch 69 is 440 Hz. -/
theorem pitchToFreq_69 : pitchToFreq Real.rpow 69 = 440 := by
  simp only [pitchToFreq, Real.rpow_eq_pow]
  norm_num

/-- Pitch 108, the highest the pitch control reaches, is below 7040 Hz. -/
theorem pitchToFreq_108_lt : pitchToFreq Real.rpow 108 < 7040 := by
  simp only [pitchToFreq, Real.rpow_eq_pow]
  have h := Real.rpow_lt_rpow_of_exponent_lt (by norm_num : (1 : ℝ) < 2)
    (by norm_num : ((108 : ℝ) - 69) / 12 < (4 : ℕ))
  rw [Real.rpow_natCast] at h
  norm_num at h ⊢
  linarith

/-- The fundamental of a frame lies between pitch 12 and pitch 108. -/
theorem freq_mem (a : Frame ℝ) :
    pitchToFreq Real.rpow 12 ≤ pitchToFreq Real.rpow (60 + pitchCtl a) ∧
      pitchToFreq Real.rpow (60 + pitchCtl a) ≤ pitchToFreq Real.rpow 108 := by
  obtain ⟨h1, h2⟩ := constrain_mem (a.FREQ_PARAM + a.VOCT_INPUT / 12.0) (-48) 48
    (by norm_num : (-48 : ℝ) ≤ 48)
  constructor
  · exact pitchToFreq_strictMono.monotone (by rw [pitchCtl]; linarith)
  · exact pitchToFreq_strictMono.monotone (by rw [pitchCtl]; linarith)

/-- C17.  The fundamental is `pitchToFreq(60 + constrain(knob + v/12, -48, 48))`; it lies in
`[pitchToFreq(12), pitchToFreq(108)]`, which is inside `(0, 20000)`; with element 0 of the
table equal to 0, as the constructor leaves it, mode 0 is at the fundamental exactly, and
mode 0 is evaluated in every frame that has a value (every frame with a positive sample rate
has one). -/
theorem fundamental_evaluated (pi : ℝ) (b : Tonerig_modal ℝ) (a : Frame ℝ)
    (h0 : b.inharmonicities 0 = 0) :
    pitchToFreq Real.rpow (60 + pitchCtl a) =
      pitchToFreq Real.rpow (60 + constrain (a.FREQ_PARAM + a.VOCT_INPUT / 12) (-48) 48) ∧
    modeFreq (inharmCtl a) (b.inharmonicities 0) (0 : Fin NUM_MODES).val
      (pitchToFreq Real.rpow (60 + pitchCtl a)) = pitchToFreq Real.rpow (60 + pitchCtl a) ∧
    pitchToFreq Real.rpow 12 ≤ pitchToFreq Real.rpow (60 + pitchCtl a) ∧
    pitchToFreq Real.rpow (60 + pitchCtl a) ≤ pitchToFreq Real.rpow 108 ∧
    0 < pitchToFreq Real.rpow 12 ∧ pitchToFreq Real.rpow 108 < 20000 ∧
    (∀ (RAND_MAX : Nat) (rand : Nat → Nat),
      (Tonerig_modal.init pi RAND_MAX rand : Tonerig_modal ℝ).inharmonicities 0 = 0) ∧
    (0 < a.sampleRate → ∃ r, process pi Real.rpow b a = some r) ∧
    ∀ (b1 : Tonerig_modal ℝ) (y : ℝ), process pi Real.rpow b a = some (b1, y) →
      ∃ damp, dampCtl a = some damp ∧
        b1.modes 0 = (Modal.specAdvance (configured pi a.sampleRate
          (pitchToFreq Real.rpow (60 + pitchCtl a)) damp (b.modes 0)) a.IN_INPUT).1 := by
  have hf0 : modeFreq (inharmCtl a) (b.inharmonicities 0) (0 : Fin NUM_MODES).val
      (pitchToFreq Real.rpow (60 + pitchCtl a)) = pitchToFreq Real.rpow (60 + pitchCtl a) := by
    rw [h0, modeFreq]
    norm_num
  have h108 : pitchToFreq Real.rpow 108 < 20000 := lt_trans pitchToFreq_108_lt (by norm_num)
  obtain ⟨hlo, hhi⟩ := freq_mem a
  refine ⟨?_, hf0, hlo, hhi, pitchToFreq_pos 12, h108, fun R rand => ?_,
    process_defined pi Real.rpow b a, fun b1 y h => ?_⟩
  · rw [pitchCtl]
    norm_num
  · simp [Tonerig_modal.init]
  · obtain ⟨c, hc, hlt, hge⟩ := exists_cutoff fun j : Fin NUM_MODES =>
      modeFreq (inharmCtl a) (b.inharmonicities j) j (pitchToFreq Real.rpow (60 + pitchCtl a))
    have hc0 : 0 < c := by
      rcases Nat.eq_zero_or_pos c with hz | hp
      · have := hge 0 (by rw [hz]; rfl)
        rw [hf0] at this
        linarith
      · exact hp
    obtain ⟨-, -, h3⟩ := process_modes_below pi Real.rpow b a _ _ c (dampCtl_eq a)
      (dampDecOf_eq _) hc hlt hge b1 y h 0 hc0
    refine ⟨_, dampCtl_eq a, ?_⟩
    rw [h3, hf0]
    simp only [Fin.val_zero, pow_zero, mul_one]

/-- C17, witness: the bank built by the constructor and the scenario frame. -/
theorem fundamental_evaluated_witness :
    ∃ r, process Real.pi Real.rpow (Tonerig_modal.init Real.pi 32767 fun _ => 12345)
      (scenarioFrame 0 1) = some r :=
  (fundamental_evaluated Real.pi (Tonerig_modal.init Real.pi 32767 fun _ => 12345)
    (scenarioFrame 0 1) (by simp [Tonerig_modal.init])).2.2.2.2.2.2.2.1
    (by norm_num [scenarioFrame])

end RealFrames

section RealStability

/-- With the inharmonicity amount in `[0, 1]` and a table entry in `[-1, 1]` the frequency of
a mode is not negative. -/
theorem modeFreq_nonneg (a : Frame ℝ) (t : ℝ) (ht : -1 ≤ t ∧ t ≤ 1) (i : Nat) :
    0 ≤ 1 + inharmCtl a * t ∧
      0 ≤ modeFreq (inharmCtl a) t i (pitchToFreq Real.rpow (60 + pitchCtl a)) := by
  obtain ⟨h0, h1⟩ := constrain_mem (a.INHARM_PARAM + a.INHARM_INPUT / 5.0) 0 1
    (zero_le_one : (0 : ℝ) ≤ 1)
  have hfac : 0 ≤ 1 + inharmCtl a * t := by
    rw [inharmCtl]
    nlinarith [ht.1, ht.2]
  refine ⟨hfac, ?_⟩
  rw [modeFreq]
  exact mul_nonneg (mul_nonneg hfac (Nat.cast_nonneg _)) (pitchToFreq_pos _).le

/-- At a sample rate of at least 44100 a frequency in `[0, 20000)` gives
`0 <= k*omega0 < 2` for `k = 1/(2*(2*sr))` and `omega0 = 2*pi*f`. -/
theorem k_omega_lt_two (sr f : ℝ) (hsr : 44100 ≤ sr) (hf0 : 0 ≤ f) (hf : f < 20000) :
    1 / (2 * (2 * sr)) * (2 * Real.pi * f) = 2 * Real.pi * f / (4 * sr) ∧
      0 ≤ 1 / (2 * (2 * sr)) * (2 * Real.pi * f) ∧
      1 / (2 * (2 * sr)) * (2 * Real.pi * f) < 2 := by
  have hpos : (0 : ℝ) < 4 * sr := by linarith
  have hpi := Real.pi_le_four
  have hpi0 := Real.pi_pos
  have e : 1 / (2 * (2 * sr)) * (2 * Real.pi * f) = 2 * Real.pi * f / (4 * sr) := by
    rw [show (2 : ℝ) * (2 * sr) = 4 * sr by ring, one_div, inv_mul_eq_div]
  refine ⟨e, ?_, ?_⟩
  · rw [e]
    exact div_nonneg (mul_nonneg (mul_nonneg (by norm_num) hpi0.le) hf0) hpos.le
  · rw [e, div_lt_iff₀ hpos]
    have h1 : 2 * Real.pi * f ≤ 2 * 4 * f :=
      mul_le_mul_of_nonneg_right (by linarith) hf0
    linarith

/-- C18.  At a sample rate of at least 44100, with table entries in `[-1, 1]`: the factor
`1 + inharm*table[i]` and the frequency of every mode are not negative; the frame has a
value; and each evaluated mode has frequency below 20000 Hz and is left with
`0 <= k*omega0 = 2*pi*f/(4*sr) < 2`, so that the energy of its unforced sub-steps is never
negative and never grows. -/
theorem evaluated_mode_stable (b : Tonerig_modal ℝ) (a : Frame ℝ)
    (hsr : 44100 ≤ a.sampleRate)
    (ht : ∀ j : Fin NUM_MODES, -1 ≤ b.inharmonicities j ∧ b.inharmonicities j ≤ 1) :
    (∀ j : Fin NUM_MODES, 0 ≤ 1 + inharmCtl a * b.inharmonicities j ∧
      0 ≤ modeFreq (inharmCtl a) (b.inharmonicities j) j
        (pitchToFreq Real.rpow (60 + pitchCtl a))) ∧
    ∃ b1 y, process Real.pi Real.rpow b a = some (b1, y) ∧
      ∀ c : Nat, c ≤ NUM_MODES →
        (∀ j : Fin NUM_MODES, j.val < c →
          modeFreq (inharmCtl a) (b.inharmonicities j) j
            (pitchToFreq Real.rpow (60 + pitchCtl a)) < 20000) →
        (∀ j : Fin NUM_MODES, j.val = c →
          20000 ≤ modeFreq (inharmCtl a) (b.inharmonicities j) j
            (pitchToFreq Real.rpow (60 + pitchCtl a))) →
        ∀ j : Fin NUM_MODES, j.val < c →
          (b1.modes j).k * (b1.modes j).omega0 =
              2 * Real.pi * modeFreq (inharmCtl a) (b.inharmonicities j) j
                (pitchToFreq Real.rpow (60 + pitchCtl a)) / (4 * a.sampleRate) ∧
            0 ≤ (b1.modes j).k * (b1.modes j).omega0 ∧
            (b1.modes j).k * (b1.modes j).omega0 < 2 ∧
            ∀ n, ∃ s, Modal.subSteps 0 n (b1.modes j) = some s ∧ 0 ≤ Modal.energy s ∧
              Modal.energy s ≤ Modal.energy (b1.modes j) := by
  have hsr0 : 0 < a.sampleRate := by linarith
  refine ⟨fun j => modeFreq_nonneg a _ (ht j) j, ?_⟩
  obtain ⟨r, hr⟩ := process_defined Real.pi Real.rpow b a hsr0
  refine ⟨r.1, r.2, hr, fun c hc hlt hge j hj => ?_⟩
  obtain ⟨-, -, h3⟩ := process_modes_below Real.pi Real.rpow b a _ _ c (dampCtl_eq a)
    (dampDecOf_eq _) hc hlt hge r.1 r.2 hr j hj
  have hk : (r.1.modes j).k = 1 / (2 * (2 * a.sampleRate)) := by rw [h3]; rfl
  have hw : (r.1.modes j).omega0 = 2 * Real.pi *
      modeFreq (inharmCtl a) (b.inharmonicities j) j
        (pitchToFreq Real.rpow (60 + pitchCtl a)) := by rw [h3]; rfl
  have hσ : (r.1.modes j).sigma0 = constrain (a.DAMP_PARAM + 2 * a.DAMP_INPUT) 0 10 *
      max (1 + (constrain (a.DAMP_PARAM + 2 * a.DAMP_INPUT) 0 10 - 5) / 50) 1 ^ j.val := by
    rw [h3]; rfl
  obtain ⟨e1, e2, e3⟩ := k_omega_lt_two a.sampleRate _ hsr
    (modeFreq_nonneg a _ (ht j) j).2 (hlt j hj)
  rw [← hk] at e1 e2 e3
  rw [← hw] at e2 e3
  nth_rewrite 1 [← hw] at e1
  refine ⟨e1, e2, e3, fun n => ?_⟩
  have hd0 := (dampCtl_mem a _ (dampCtl_eq a)).1
  have hg1 := dampDecOf_ge_one _ _
    (dampDecOf_eq (constrain (a.DAMP_PARAM + 2 * a.DAMP_INPUT) 0 10))
  have hkσ : 0 ≤ (r.1.modes j).k * (r.1.modes j).sigma0 := by
    rw [hk, hσ]
    exact mul_nonneg (by positivity) (mul_nonneg hd0 (pow_nonneg (le_trans zero_le_one hg1) _))
  obtain ⟨s, hs, hks, -, hws, hle, -⟩ := subSteps_energy_le n (r.1.modes j) hkσ
  refine ⟨s, hs, ?_, hle⟩
  have hq : s.k ^ 2 * s.omega0 ^ 2 = ((r.1.modes j).k * (r.1.modes j).omega0) ^ 2 := by
    rw [hks, hws]; ring
  have hq0 : 0 ≤ s.k ^ 2 * s.omega0 ^ 2 := by rw [hq]; positivity
  have hq4 : s.k ^ 2 * s.omega0 ^ 2 ≤ 4 := by
    rw [hq]
    nlinarith
  have hl := energy_lower s
  have : 0 ≤ (s.k ^ 2 * s.omega0 ^ 2) * (4 - s.k ^ 2 * s.omega0 ^ 2) / 4 * s.u ^ 2 :=
    mul_nonneg (div_nonneg (mul_nonneg hq0 (by linarith)) (by norm_num)) (sq_nonneg _)
  linarith

/-- Every element of the table built by the constructor lies in `[-1, 1]`. -/
theorem init_table_bounds {α : Type} [LinearOrderedField α] (pi : α) (RAND_MAX : Nat)
    (rand : Nat → Nat) (hR : 0 < RAND_MAX) (hr : ∀ n, rand n ≤ RAND_MAX)
    (j : Fin NUM_MODES) :
    -1 ≤ (Tonerig_modal.init pi RAND_MAX rand).inharmonicities j ∧
      (Tonerig_modal.init pi RAND_MAX rand).inharmonicities j ≤ 1 := by
  by_cases hj : j.val = 0
  · simp [Tonerig_modal.init, hj]
  · have hRa : (0 : α) < (RAND_MAX : α) := by exact_mod_cast hR
    have h0 : (0 : α) ≤ (rand (j.val - 1) : α) / (RAND_MAX : α) :=
      div_nonneg (Nat.cast_nonneg _) hRa.le
    have h1 : (rand (j.val - 1) : α) / (RAND_MAX : α) ≤ 1 := by
      rw [div_le_one hRa]
      exact_mod_cast hr (j.val - 1)
    simp only [Tonerig_modal.init, hj, if_false]
    constructor <;> linarith

/-- C18, witness: the bank built by the constructor and the scenario frame. -/
theorem evaluated_mode_stable_witness :
    ∃ b1 y, process Real.pi Real.rpow (Tonerig_modal.init Real.pi 32767 fun _ => 12345)
      (scenarioFrame 0 1) = some (b1, y) := by
  obtain ⟨b1, y, h, -⟩ := (evaluated_mode_stable
    (Tonerig_modal.init Real.pi 32767 fun _ => 12345) (scenarioFrame 0 1)
    (by norm_num [scenarioFrame])
    (init_table_bounds Real.pi 32767 (fun _ => 12345) (by norm_num)
      (fun _ => by norm_num))).2
  exact ⟨b1, y, h⟩

end RealStability

section RealScenario

/-- In the scenario frame the pitch control is 9, the inharmonicity amount 0 and the
fundamental 440 Hz. -/
theorem scenario_controls (d x : ℝ) :
    inharmCtl (scenarioFrame d x) = 0 ∧
      pitchToFreq Real.rpow (60 + pitchCtl (scenarioFrame d x)) = 440 := by
  constructor
  · norm_num [inharmCtl, scenarioFrame, constrain]
  · have : pitchCtl (scenarioFrame d x) = 9 := by
      norm_num [pitchCtl, scenarioFrame, constrain]
    rw [this, show (60 : ℝ) + 9 = 69 by norm_num, pitchToFreq_69]

/-- In the scenario frame mode `j` is at `440 * (j + 1)` Hz, below 20000 Hz. -/
theorem scenario_freq (b : Tonerig_modal ℝ) (d x : ℝ) (j : Fin NUM_MODES) :
    modeFreq (inharmCtl (scenarioFrame d x)) (b.inharmonicities j) j
        (pitchToFreq Real.rpow (60 + pitchCtl (scenarioFrame d x))) = 440 * ((j.val : ℝ) + 1) ∧
      440 * ((j.val : ℝ) + 1) < 20000 := by
  obtain ⟨h1, h2⟩ := scenario_controls d x
  constructor
  · rw [h1, h2, modeFreq]
    push_cast
    ring
  · have : (j.val : ℝ) < 20 := by exact_mod_cast j.isLt
    linarith

/-- In the scenario `0 < (k*w)^2 < 1` for every mode, with `k = 1/(4*44100)` and
`w = 2*pi*440*(i+1)`. -/
theorem scenario_kw (i : Nat) (hi : i < NUM_MODES) :
    0 < (1 / (4 * 44100 : ℝ)) ^ 2 * (2 * Real.pi * 440 * ((i : ℝ) + 1)) ^ 2 ∧
      (1 / (4 * 44100 : ℝ)) ^ 2 * (2 * Real.pi * 440 * ((i : ℝ) + 1)) ^ 2 < 1 := by
  have hpi := Real.pi_le_four
  have hpi0 := Real.pi_pos
  have hi1 : (i : ℝ) + 1 ≤ 20 := by
    have : (i : ℝ) < 20 := by exact_mod_cast hi
    have : (i : ℝ) + 1 ≤ 20 := by exact_mod_cast Nat.succ_le_of_lt hi
    exact this
  have hi0 : (0 : ℝ) < (i : ℝ) + 1 := by positivity
  have e : (1 / (4 * 44100 : ℝ)) ^ 2 * (2 * Real.pi * 440 * ((i : ℝ) + 1)) ^ 2 =
      (1 / (4 * 44100) * (2 * Real.pi * 440 * ((i : ℝ) + 1))) ^ 2 := by ring
  have hx0 : 0 < 1 / (4 * 44100 : ℝ) * (2 * Real.pi * 440 * ((i : ℝ) + 1)) := by positivity
  have hx1 : 1 / (4 * 44100 : ℝ) * (2 * Real.pi * 440 * ((i : ℝ) + 1)) < 1 := by
    have h1 : Real.pi * ((i : ℝ) + 1) ≤ 4 * 20 := mul_le_mul hpi hi1 hi0.le (by norm_num)
    have e2 : 1 / (4 * 44100 : ℝ) * (2 * Real.pi * 440 * ((i : ℝ) + 1)) =
        (Real.pi * ((i : ℝ) + 1)) * (880 / 176400) := by ring
    rw [e2]
    nlinarith
  rw [e]
  exact ⟨by positivity, by nlinarith⟩

/-- The contribution of every mode to frame 0 of the scenario is positive. -/
theorem frame0Contribution_pos (i : Nat) (hi : i < NUM_MODES) :
    0 < frame0Contribution Real.pi i := by
  obtain ⟨h0, h1⟩ := scenario_kw i hi
  rw [frame0Contribution]
  have h3 : 0 < 3 - (1 / (4 * 44100 : ℝ)) ^ 2 * (2 * Real.pi * 440 * ((i : ℝ) + 1)) ^ 2 := by
    linarith
  have h9 : (0 : ℝ) < 0.9999 := by norm_num
  have hK : (0 : ℝ) < 7643.022 := by norm_num
  exact div_pos (mul_pos (mul_pos h9 h3) h0) hK

/-- The sample of a resonator at rest that the scenario configures without damping and
advances with the force 1. -/
theorem scenario_sample (m : Modal ℝ) (i : Nat) (hu : m.u = 0) (hup : m.up = 0)
    (hlp : m.lp = 0) :
    (Modal.specAdvance (configured Real.pi 44100 (440 * ((i : ℝ) + 1)) 0 m) 1).2 =
      frame0Contribution Real.pi i := by
  simp only [Modal.specAdvance, Modal.specUn, configured, frame0Contribution, hu, hup, hlp]
  norm_num
  ring

end RealScenario

section RealFrame0

/-- In the scenario frame with the damping knob at 0 the base damping is 0 and the
multiplier 1. -/
theorem scenario_damp_zero (x : ℝ) :
    dampCtl (scenarioFrame 0 x) = some 0 ∧ dampDecOf (0 : ℝ) = some 1 := by
  constructor
  · rw [dampCtl_eq]; norm_num [scenarioFrame, constrain]
  · rw [dampDecOf_eq]; norm_num

/-- C11.  Frame 0 of the end-to-end scenario from a bank whose modes are at rest: every mode
`j` is at `440 * (j + 1)` Hz, below 20000 Hz, so all 20 modes are evaluated; each contributes
`0.9999 * (3 - k²w²) * k²w² / K > 0`; the output is 5 times the sum of these contributions
and is not zero. -/
theorem frame0_output (b : Tonerig_modal ℝ)
    (hb : ∀ j : Fin NUM_MODES, (b.modes j).u = 0 ∧ (b.modes j).up = 0 ∧ (b.modes j).lp = 0) :
    (∀ j : Fin NUM_MODES,
      modeFreq (inharmCtl (scenarioFrame (0 : ℝ) 1)) (b.inharmonicities j) j
          (pitchToFreq Real.rpow (60 + pitchCtl (scenarioFrame (0 : ℝ) 1)))
        = 440 * ((j.val : ℝ) + 1) ∧
      440 * ((j.val : ℝ) + 1) < 20000) ∧
    (∀ j : Fin NUM_MODES, 0 < frame0Contribution Real.pi j.val) ∧
    5 * ∑ j : Fin NUM_MODES, frame0Contribution Real.pi j.val ≠ 0 ∧
    ∃ b1, process Real.pi Real.rpow b (scenarioFrame 0 1) =
        some (b1, 5 * ∑ j : Fin NUM_MODES, frame0Contribution Real.pi j.val) ∧
      ∀ j : Fin NUM_MODES,
        b1.modes j = (Modal.specAdvance
          (configured Real.pi 44100 (440 * ((j.val : ℝ) + 1)) 0 (b.modes j)) 1).1 ∧
        (Modal.specAdvance
          (configured Real.pi 44100 (440 * ((j.val : ℝ) + 1)) 0 (b.modes j)) 1).2
          = frame0Contribution Real.pi j.val := by
  have hpos : ∀ j : Fin NUM_MODES, 0 < frame0Contribution Real.pi j.val :=
    fun j => frame0Contribution_pos j.val j.isLt
  have hsum : 0 < ∑ j : Fin NUM_MODES, frame0Contribution Real.pi j.val :=
    Finset.sum_pos (fun j _ => hpos j) ⟨0, Finset.mem_univ _⟩
  refine ⟨fun j => scenario_freq b 0 1 j, hpos, by positivity, ?_⟩
  obtain ⟨hd, hg⟩ := scenario_damp_zero 1
  have hev : ∀ j : Fin NUM_MODES, j.val < NUM_MODES →
      evalMode Real.pi (scenarioFrame (0 : ℝ) 1).sampleRate (scenarioFrame (0 : ℝ) 1).IN_INPUT
        (modeFreq (inharmCtl (scenarioFrame (0 : ℝ) 1)) (b.inharmonicities j) j
          (pitchToFreq Real.rpow (60 + pitchCtl (scenarioFrame (0 : ℝ) 1))))
        (0 * 1 ^ j.val) (b.modes j) =
      some (Modal.specAdvance
        (configured Real.pi 44100 (440 * ((j.val : ℝ) + 1)) 0 (b.modes j)) 1) := by
    intro j _
    rw [(scenario_freq b 0 1 j).1, evalMode_of_ne _ _ _ _ _ _
      (by norm_num [scenarioFrame]) (by norm_num)]
    simp [scenarioFrame]
  obtain ⟨b1, h1, -, h3, -, -⟩ := process_char Real.pi Real.rpow b (scenarioFrame 0 1) 0 1
    NUM_MODES hd hg (le_refl _) (fun j _ => by rw [(scenario_freq b 0 1 j).1]
                                               exact (scenario_freq b 0 1 j).2)
    (fun j hj => absurd j.isLt (by omega)) _ hev
  have hs : ∀ j : Fin NUM_MODES, (Modal.specAdvance
      (configured Real.pi 44100 (440 * ((j.val : ℝ) + 1)) 0 (b.modes j)) 1).2
      = frame0Contribution Real.pi j.val :=
    fun j => scenario_sample (b.modes j) j.val (hb j).1 (hb j).2.1 (hb j).2.2
  refine ⟨b1, ?_, fun j => ⟨h3 j j.isLt, hs j⟩⟩
  rw [h1, Fin.sum_univ_def]
  have ht : (List.finRange NUM_MODES).take NUM_MODES = List.finRange NUM_MODES :=
    List.take_of_length_le (by simp)
  rw [ht]
  simp only [hs]

/-- C11, witness: the bank built by the constructor has its modes at rest, and its frame 0
is not silent. -/
theorem frame0_output_witness :
    ∃ b1 y, process Real.pi Real.rpow (Tonerig_modal.init Real.pi 32767 fun _ => 12345)
      (scenarioFrame 0 1) = some (b1, y) ∧ y ≠ 0 := by
  obtain ⟨-, -, hne, b1, h, -⟩ := frame0_output
    (Tonerig_modal.init Real.pi 32767 fun _ => 12345) (fun _ => ⟨rfl, rfl, rfl⟩)
  exact ⟨b1, _, h, hne⟩

end RealFrame0

section Decay

open Filter Topology

/-- Two steps of the damped recurrence `d * u' = b * u - (1 - a) * up` with `d = 1 + a`,
`a > 0` and `|b| < 2` shrink the energy `u² + up² - b*u*up` by the factor
`1 - a * (4 - 2 * |b|) / d²`. -/
theorem energy_two_steps (a b u up u1 u2 : ℝ) (ha : 0 < a) (hb : |b| < 2)
    (h1 : (1 + a) * u1 = b * u - (1 - a) * up) (h2 : (1 + a) * u2 = b * u1 - (1 - a) * u) :
    u2 ^ 2 + u1 ^ 2 - b * u2 * u1 ≤
      (1 - a * (4 - 2 * |b|) / (1 + a) ^ 2) * (u ^ 2 + up ^ 2 - b * u * up) := by
  have hd : 0 < 1 + a := by linarith
  have hd2 : 0 < (1 + a) ^ 2 := by positivity
  have hs0 : 0 ≤ |b| := abs_nonneg b
  have hs2 : |b| ^ 2 = b ^ 2 := sq_abs b
  -- the energy identities of the two steps
  have e1 : u1 ^ 2 + u ^ 2 - b * u1 * u = u ^ 2 + up ^ 2 - b * u * up - a * (u1 - up) ^ 2 := by
    linear_combination (u1 - up) * h1
  have e2 : u2 ^ 2 + u1 ^ 2 - b * u2 * u1 = u1 ^ 2 + u ^ 2 - b * u1 * u - a * (u2 - u) ^ 2 := by
    linear_combination (u2 - u) * h2
  -- the two losses in terms of the energies
  have l1 : (1 + a) ^ 2 * (u1 - up) ^ 2 =
      4 * (u ^ 2 + up ^ 2 - b * u * up) - (4 - b ^ 2) * u ^ 2 := by
    have : (1 + a) * (u1 - up) = b * u - 2 * up := by linear_combination h1
    calc (1 + a) ^ 2 * (u1 - up) ^ 2 = ((1 + a) * (u1 - up)) ^ 2 := by ring
      _ = (b * u - 2 * up) ^ 2 := by rw [this]
      _ = _ := by ring
  have l2 : (1 + a) ^ 2 * (u2 - u) ^ 2 =
      4 * (u1 ^ 2 + u ^ 2 - b * u1 * u) - (4 - b ^ 2) * u1 ^ 2 := by
    have : (1 + a) * (u2 - u) = b * u1 - 2 * u := by linear_combination h2
    calc (1 + a) ^ 2 * (u2 - u) ^ 2 = ((1 + a) * (u2 - u)) ^ 2 := by ring
      _ = (b * u1 - 2 * u) ^ 2 := by rw [this]
      _ = _ := by ring
  -- the middle energy dominates the squares
  have m1 : (2 - |b|) * (u ^ 2 + u1 ^ 2) ≤ 2 * (u1 ^ 2 + u ^ 2 - b * u1 * u) := by
    rcases le_or_lt 0 b with hb0 | hb0
    · rw [abs_of_nonneg hb0]
      linarith [mul_nonneg hb0 (sq_nonneg (u - u1))]
    · rw [abs_of_neg hb0]
      linarith [mul_nonneg (neg_nonneg.mpr hb0.le) (sq_nonneg (u + u1))]
  have m2 : (4 - b ^ 2) * (u ^ 2 + u1 ^ 2) ≤
      2 * (2 + |b|) * (u1 ^ 2 + u ^ 2 - b * u1 * u) := by
    have : (4 - b ^ 2) = (2 + |b|) * (2 - |b|) := by rw [← hs2]; ring
    rw [this]
    linarith [mul_le_mul_of_nonneg_left m1 (by linarith : 0 ≤ 2 + |b|)]
  -- the energies are not negative and do not grow
  have p1 : 0 ≤ u1 ^ 2 + u ^ 2 - b * u1 * u := by
    have := mul_nonneg (by linarith : 0 ≤ 2 - |b|) (add_nonneg (sq_nonneg u) (sq_nonneg u1))
    linarith
  have g1 : u1 ^ 2 + u ^ 2 - b * u1 * u ≤ u ^ 2 + up ^ 2 - b * u * up := by
    rw [e1]
    linarith [mul_nonneg ha.le (sq_nonneg (u1 - up))]
  -- put together, times d²
  have key : (1 + a) ^ 2 * (u2 ^ 2 + u1 ^ 2 - b * u2 * u1) ≤
      ((1 + a) ^ 2 - a * (4 - 2 * |b|)) * (u ^ 2 + up ^ 2 - b * u * up) := by
    have t1 : (1 + a) ^ 2 * (u2 ^ 2 + u1 ^ 2 - b * u2 * u1) =
        (1 + a) ^ 2 * (u ^ 2 + up ^ 2 - b * u * up)
          - a * ((1 + a) ^ 2 * (u1 - up) ^ 2) - a * ((1 + a) ^ 2 * (u2 - u) ^ 2) := by
      rw [e2, e1]; ring
    rw [t1, l1, l2]
    have t2 := mul_le_mul_of_nonneg_left m2 ha.le
    have t3 := mul_le_mul_of_nonneg_left g1
      (mul_nonneg ha.le (mul_nonneg (by norm_num : (0 : ℝ) ≤ 2) hs0))
    linarith
  have e3 : (1 - a * (4 - 2 * |b|) / (1 + a) ^ 2) * (u ^ 2 + up ^ 2 - b * u * up) =
      ((1 + a) ^ 2 - a * (4 - 2 * |b|)) * (u ^ 2 + up ^ 2 - b * u * up) / (1 + a) ^ 2 := by
    field_simp
  rw [e3, le_div_iff₀ hd2]
  linarith

/-- A one-pole low-pass of a sequence that tends to 0 tends to 0. -/
theorem lowpass_tendsto_zero (l v : ℕ → ℝ) (c : ℝ) (hc0 : 0 ≤ c) (hc1 : c < 1)
    (hrec : ∀ n, l (n + 1) = c * l n + (1 - c) * v (n + 1))
    (hv : Tendsto v atTop (𝓝 0)) : Tendsto l atTop (𝓝 0) := by
  rw [Metric.tendsto_atTop] at hv ⊢
  intro ε hε
  obtain ⟨N1, hN1⟩ := hv (ε / 2) (by linarith)
  have hbound : ∀ m, |l (N1 + m)| ≤ c ^ m * |l N1| + ε / 2 := by
    intro m
    induction m with
    | zero => simp; linarith
    | succ m ih =>
      have hvm : |v (N1 + m + 1)| < ε / 2 := by
        have := hN1 (N1 + m + 1) (by omega)
        rwa [Real.dist_eq, sub_zero] at this
      have e : l (N1 + (m + 1)) = c * l (N1 + m) + (1 - c) * v (N1 + m + 1) := hrec (N1 + m)
      rw [e]
      calc |c * l (N1 + m) + (1 - c) * v (N1 + m + 1)|
          ≤ |c * l (N1 + m)| + |(1 - c) * v (N1 + m + 1)| := abs_add _ _
        _ = c * |l (N1 + m)| + (1 - c) * |v (N1 + m + 1)| := by
            rw [abs_mul, abs_mul, abs_of_nonneg hc0, abs_of_nonneg (by linarith : 0 ≤ 1 - c)]
        _ ≤ c * (c ^ m * |l N1| + ε / 2) + (1 - c) * (ε / 2) := by
            have h1 := mul_le_mul_of_nonneg_left ih hc0
            have h2 := mul_le_mul_of_nonneg_left hvm.le (by linarith : 0 ≤ 1 - c)
            linarith
        _ = c ^ (m + 1) * |l N1| + ε / 2 := by ring
  obtain ⟨M, hM⟩ : ∃ M : ℕ, c ^ M * |l N1| < ε / 2 := by
    by_cases hl : |l N1| = 0
    · exact ⟨0, by rw [hl]; simp; linarith⟩
    · have hlpos : 0 < |l N1| := lt_of_le_of_ne (abs_nonneg _) (Ne.symm hl)
      obtain ⟨M, hM⟩ := exists_pow_lt_of_lt_one (div_pos (by linarith : 0 < ε / 2) hlpos) hc1
      exact ⟨M, by rwa [lt_div_iff₀ hlpos] at hM⟩
  refine ⟨N1 + M, fun n hn => ?_⟩
  obtain ⟨m, rfl⟩ : ∃ m, n = N1 + m := ⟨n - N1, by omega⟩
  have hm : M ≤ m := by omega
  have hpow : c ^ m ≤ c ^ M := pow_le_pow_of_le_one hc0 hc1.le hm
  have := hbound m
  have h3 : c ^ m * |l N1| ≤ c ^ M * |l N1| := mul_le_mul_of_nonneg_right hpow (abs_nonneg _)
  rw [Real.dist_eq, sub_zero]
  linarith

end Decay

section DecayResonator

open Filter Topology

/-- The unforced update formula as a recurrence. -/
theorem specUn_zero_force (k sigma0 omega0 m u up : ℝ) (h : 1 + k * sigma0 ≠ 0) :
    (1 + k * sigma0) * Modal.specUn k sigma0 omega0 m u up 0 =
      (2 - k ^ 2 * omega0 ^ 2) * u - (1 - k * sigma0) * up := by
  simp only [Modal.specUn]
  field_simp
  ring

/-- One unforced call of a damped resonator with `|2 - k²ω0²| < 2` shrinks the energy by the
factor `1 - a * (4 - 2 * |2 - k²ω0²|) / (1 + a)²`, where `a = k*sigma0`. -/
theorem energy_specAdvance_le (s : Modal ℝ) (ha : 0 < s.k * s.sigma0)
    (hb : |2 - s.k ^ 2 * s.omega0 ^ 2| < 2) :
    Modal.energy (Modal.specAdvance s 0).1 ≤
      (1 - s.k * s.sigma0 * (4 - 2 * |2 - s.k ^ 2 * s.omega0 ^ 2|) / (1 + s.k * s.sigma0) ^ 2)
        * Modal.energy s := by
  have hd : 1 + s.k * s.sigma0 ≠ 0 := by linarith
  have h1 := specUn_zero_force s.k s.sigma0 s.omega0 s.m s.u s.up hd
  have h2 := specUn_zero_force s.k s.sigma0 s.omega0 s.m
    (Modal.specUn s.k s.sigma0 s.omega0 s.m s.u s.up 0) s.u hd
  have h := energy_two_steps (s.k * s.sigma0) (2 - s.k ^ 2 * s.omega0 ^ 2) s.u s.up _ _ ha hb
    h1 h2
  simp only [Modal.energy, Modal.specAdvance]
  linarith

/-- Unforced calls keep the parameters. -/
theorem calls_params {α : Type} [LinearOrderedField α] (s : Modal α) (n : Nat) :
    (Modal.calls s n).k = s.k ∧ (Modal.calls s n).sigma0 = s.sigma0 ∧
      (Modal.calls s n).omega0 = s.omega0 ∧ (Modal.calls s n).m = s.m := by
  induction n with
  | zero => exact ⟨rfl, rfl, rfl, rfl⟩
  | succ n ih => exact ih

/-- With `1 + k*sigma0` not zero every unforced call has a value: the next state and the
sample `(1 + sigma0) * (u - lp)` of the next state. -/
theorem calls_getNextSample {α : Type} [LinearOrderedField α] (s : Modal α)
    (hd : 1 + s.k * s.sigma0 ≠ 0) (n : Nat) :
    Modal.getNextSample (Modal.calls s n) 0 =
      some (Modal.calls s (n + 1),
        (1 + s.sigma0) * ((Modal.calls s (n + 1)).u - (Modal.calls s (n + 1)).lp)) := by
  obtain ⟨hk, hs, -, -⟩ := calls_params s n
  have hdn : 1 + (Modal.calls s n).k * (Modal.calls s n).sigma0 ≠ 0 := by
    rw [hk, hs]; exact hd
  have e : Modal.specAdvance (Modal.calls s n) 0 =
      (Modal.calls s (n + 1), (1 + (Modal.calls s n).sigma0) *
        ((Modal.calls s (n + 1)).u - (Modal.calls s (n + 1)).lp)) := rfl
  rw [getNextSample_of_ne _ 0 hdn, e, hs]

/-- The low-pass state after an unforced call. -/
theorem calls_lp {α : Type} [LinearOrderedField α] (s : Modal α) (n : Nat) :
    (Modal.calls s (n + 1)).lp =
      0.9999 * (Modal.calls s n).lp + 0.0001 * (Modal.calls s (n + 1)).u := rfl

/-- The energy of a damped resonator with `|2 - k²ω0²| < 2` decays geometrically under
unforced calls. -/
theorem calls_energy_le (s : Modal ℝ) (ha : 0 < s.k * s.sigma0)
    (hb : |2 - s.k ^ 2 * s.omega0 ^ 2| < 2) (n : Nat) :
    Modal.energy (Modal.calls s n) ≤
      (1 - s.k * s.sigma0 * (4 - 2 * |2 - s.k ^ 2 * s.omega0 ^ 2|) / (1 + s.k * s.sigma0) ^ 2)
        ^ n * Modal.energy s := by
  have hρ0 : 0 ≤ 1 - s.k * s.sigma0 * (4 - 2 * |2 - s.k ^ 2 * s.omega0 ^ 2|)
      / (1 + s.k * s.sigma0) ^ 2 := by
    have hd2 : 0 < (1 + s.k * s.sigma0) ^ 2 := by positivity
    rw [sub_nonneg, div_le_one hd2]
    have := abs_nonneg (2 - s.k ^ 2 * s.omega0 ^ 2)
    nlinarith [sq_nonneg (1 - s.k * s.sigma0), mul_nonneg ha.le this]
  induction n with
  | zero => simp [Modal.calls]
  | succ n ih =>
    obtain ⟨hk, hs, hw, -⟩ := calls_params s n
    have h := energy_specAdvance_le (Modal.calls s n) (by rw [hk, hs]; exact ha)
      (by rw [hk, hw]; exact hb)
    rw [hk, hs, hw] at h
    calc Modal.energy (Modal.calls s (n + 1))
        ≤ _ * Modal.energy (Modal.calls s n) := h
      _ ≤ _ * (_ ^ n * Modal.energy s) := mul_le_mul_of_nonneg_left ih hρ0
      _ = _ := by ring

end DecayResonator

section DecayLimit

open Filter Topology

/-- The state `u` of a damped resonator with `0 < k²ω0² < 4` tends to 0 under unforced
calls. -/
theorem calls_u_tendsto (s : Modal ℝ) (ha : 0 < s.k * s.sigma0)
    (hq0 : 0 < s.k ^ 2 * s.omega0 ^ 2) (hq4 : s.k ^ 2 * s.omega0 ^ 2 < 4) :
    Tendsto (fun n => (Modal.calls s n).u) atTop (𝓝 0) := by
  have hb : |2 - s.k ^ 2 * s.omega0 ^ 2| < 2 := by
    rw [abs_lt]; constructor <;> linarith
  have hd2 : 0 < (1 + s.k * s.sigma0) ^ 2 := by positivity
  have hρ1 : 1 - s.k * s.sigma0 * (4 - 2 * |2 - s.k ^ 2 * s.omega0 ^ 2|)
      / (1 + s.k * s.sigma0) ^ 2 < 1 := by
    have : 0 < s.k * s.sigma0 * (4 - 2 * |2 - s.k ^ 2 * s.omega0 ^ 2|)
        / (1 + s.k * s.sigma0) ^ 2 := div_pos (mul_pos ha (by linarith)) hd2
    linarith
  have hρ0 : 0 ≤ 1 - s.k * s.sigma0 * (4 - 2 * |2 - s.k ^ 2 * s.omega0 ^ 2|)
      / (1 + s.k * s.sigma0) ^ 2 := by
    rw [sub_nonneg, div_le_one hd2]
    have := abs_nonneg (2 - s.k ^ 2 * s.omega0 ^ 2)
    nlinarith [sq_nonneg (1 - s.k * s.sigma0), mul_nonneg ha.le this]
  have hc : 0 < (s.k ^ 2 * s.omega0 ^ 2) * (4 - s.k ^ 2 * s.omega0 ^ 2) / 4 :=
    div_pos (mul_pos hq0 (by linarith)) (by norm_num)
  -- the square of `u` is squeezed by a geometric sequence
  have hsq : Tendsto (fun n => (Modal.calls s n).u ^ 2) atTop (𝓝 0) := by
    have hgeo := (tendsto_pow_atTop_nhds_zero_of_lt_one hρ0 hρ1).mul_const
      (Modal.energy s / ((s.k ^ 2 * s.omega0 ^ 2) * (4 - s.k ^ 2 * s.omega0 ^ 2) / 4))
    rw [zero_mul] at hgeo
    refine squeeze_zero (fun n => sq_nonneg _) (fun n => ?_) hgeo
    obtain ⟨hk, -, hw, -⟩ := calls_params s n
    have h1 := energy_lower (Modal.calls s n)
    rw [hk, hw] at h1
    have h2 := calls_energy_le s ha hb n
    rw [← mul_div_assoc, le_div_iff₀ hc]
    linarith
  have habs : Tendsto (fun n => |(Modal.calls s n).u|) atTop (𝓝 0) := by
    have h := (Real.continuous_sqrt.tendsto 0).comp hsq
    simp only [Function.comp_def, Real.sqrt_sq_eq_abs, Real.sqrt_zero] at h
    exact h
  exact (tendsto_zero_iff_abs_tendsto_zero _).mpr habs

/-- The samples returned by the unforced calls of a damped resonator with
`0 < k²ω0² < 4` tend to 0. -/
theorem calls_out_tendsto (s : Modal ℝ) (ha : 0 < s.k * s.sigma0)
    (hq0 : 0 < s.k ^ 2 * s.omega0 ^ 2) (hq4 : s.k ^ 2 * s.omega0 ^ 2 < 4) :
    Tendsto (fun n => (1 + s.sigma0) *
      ((Modal.calls s (n + 1)).u - (Modal.calls s (n + 1)).lp)) atTop (𝓝 0) := by
  have hu := calls_u_tendsto s ha hq0 hq4
  have hlp : Tendsto (fun n => (Modal.calls s n).lp) atTop (𝓝 0) := by
    refine lowpass_tendsto_zero _ (fun n => (Modal.calls s n).u) 0.9999 (by norm_num)
      (by norm_num) (fun n => ?_) hu
    rw [calls_lp]
    norm_num
  have h := (hu.sub hlp).const_mul (1 + s.sigma0)
  rw [sub_zero, mul_zero] at h
  exact (tendsto_add_atTop_iff_nat 1).mpr h

end DecayLimit

section DecayBank

open Filter Topology

/-- A mode that already has the configured parameters is left alone by the configuration. -/
theorem configured_idem {α : Type} [LinearOrderedField α] (pi sr f damp : α) (m : Modal α)
    (hk : m.k = 1 / (2 * (2 * sr))) (hw : m.omega0 = 2 * pi * f) (hs : m.sigma0 = damp)
    (hm : m.m = (2 * pi * f) ^ 2 / 7643.022) : configured pi sr f damp m = m := by
  obtain ⟨u, up, lp, m0, omega0, sigma0, k⟩ := m
  simp only at hk hw hs hm
  subst hk hw hs hm
  rfl

/-- A frame of the scenario in full, for any bank, damping knob and excitation: all 20 modes
are evaluated, mode `j` with the damping `damp * g ^ j`. -/
theorem scenario_process (b : Tonerig_modal ℝ) (d x damp g : ℝ)
    (hd : dampCtl (scenarioFrame d x) = some damp) (hg : dampDecOf damp = some g) :
    process Real.pi Real.rpow b (scenarioFrame d x) =
      some ({ modes := fun j => (Modal.specAdvance
                (configured Real.pi 44100 (440 * ((j.val : ℝ) + 1)) (damp * g ^ j.val)
                  (b.modes j)) x).1
              inharmonicities := b.inharmonicities },
        5 * ∑ j : Fin NUM_MODES, (Modal.specAdvance
          (configured Real.pi 44100 (440 * ((j.val : ℝ) + 1)) (damp * g ^ j.val)
            (b.modes j)) x).2) := by
  have hd0 := (dampCtl_mem _ damp hd).1
  have hg1 := dampDecOf_ge_one damp g hg
  have hev : ∀ j : Fin NUM_MODES, j.val < NUM_MODES →
      evalMode Real.pi (scenarioFrame d x).sampleRate (scenarioFrame d x).IN_INPUT
        (modeFreq (inharmCtl (scenarioFrame d x)) (b.inharmonicities j) j
          (pitchToFreq Real.rpow (60 + pitchCtl (scenarioFrame d x))))
        (damp * g ^ j.val) (b.modes j) =
      some (Modal.specAdvance
        (configured Real.pi 44100 (440 * ((j.val : ℝ) + 1)) (damp * g ^ j.val)
          (b.modes j)) x) := by
    intro j _
    have hpos : 0 ≤ damp * g ^ j.val :=
      mul_nonneg hd0 (pow_nonneg (le_trans zero_le_one hg1) _)
    have hk : (0 : ℝ) < 1 / (2 * (2 * (scenarioFrame d x).sampleRate)) := by
      norm_num [scenarioFrame]
    rw [(scenario_freq b d x j).1, evalMode_of_ne _ _ _ _ _ _
      (by norm_num [scenarioFrame]) (by nlinarith)]
    rfl
  obtain ⟨b1, h1, h2, h3, -, -⟩ := process_char Real.pi Real.rpow b (scenarioFrame d x)
    damp g NUM_MODES hd hg (le_refl _)
    (fun j _ => by rw [(scenario_freq b d x j).1]; exact (scenario_freq b d x j).2)
    (fun j hj => absurd j.isLt (by omega)) _ hev
  have ht : (List.finRange NUM_MODES).take NUM_MODES = List.finRange NUM_MODES :=
    List.take_of_length_le (by simp)
  rw [h1, ht, ← Fin.sum_univ_def]
  congr 2
  obtain ⟨modes, inh⟩ := b1
  simp only at h2 h3
  congr 1
  funext j
  exact h3 j j.isLt

end DecayBank

section DecayClaim

open Filter Topology

/-- With the damping knob above 0 and no CV the base damping of the scenario is positive. -/
theorem scenario_damp_pos (d x : ℝ) (hd : 0 < d) :
    0 < constrain ((scenarioFrame d x).DAMP_PARAM + 2 * (scenarioFrame d x).DAMP_INPUT) 0 10 := by
  have e : (scenarioFrame d x).DAMP_PARAM + 2 * (scenarioFrame d x).DAMP_INPUT = d := by
    simp [scenarioFrame]
  rw [e, constrain]
  split_ifs with h1 h2
  · linarith
  · norm_num
  · exact hd

/-- The samples of a mode of the scenario, once configured with a positive damping, tend to
0 under unforced calls. -/
theorem scenario_mode_tendsto (m : Modal ℝ) (j : Fin NUM_MODES) (sigma : ℝ) (hσ : 0 < sigma)
    (hk : m.k = 1 / (2 * (2 * 44100))) (hw : m.omega0 = 2 * Real.pi * (440 * ((j.val : ℝ) + 1)))
    (hs : m.sigma0 = sigma) :
    Tendsto (fun n => (1 + sigma) *
      ((Modal.calls m (n + 1)).u - (Modal.calls m (n + 1)).lp)) atTop (𝓝 0) := by
  obtain ⟨h0, h1⟩ := scenario_kw j.val j.isLt
  have e : m.k ^ 2 * m.omega0 ^ 2 =
      (1 / (4 * 44100 : ℝ)) ^ 2 * (2 * Real.pi * 440 * ((j.val : ℝ) + 1)) ^ 2 := by
    rw [hk, hw]; ring
  have h := calls_out_tendsto m (by rw [hk, hs]; positivity) (by rw [e]; exact h0)
    (by rw [e]; linarith)
  rw [hs] at h
  exact h

/-- C12.  End-to-end decay.  A resonator configured as in the scenario, `k = 1/(4*44100)` and
`omega0 = 2*pi*440*(i+1)`, with any damping `sigma0 > 0`, any `m` and any starting state:
every unforced call has a value and the returned samples tend to 0.  Hence, with the damping
knob above 0, the frames of the scenario from any bank, with excitation 1 at frame 0 and 0
afterwards, all have a value and their outputs tend to 0. -/
theorem scenario_decay (i : Fin NUM_MODES) (sigma0 m u up lp : ℝ) (hσ : 0 < sigma0)
    (d : ℝ) (hd : 0 < d) (b : Tonerig_modal ℝ) :
    (∃ out : ℕ → ℝ,
      (∀ n, Modal.getNextSample
          (Modal.calls
            { u := u, up := up, lp := lp, m := m,
              omega0 := 2 * Real.pi * 440 * ((i.val : ℝ) + 1), sigma0 := sigma0,
              k := 1 / (4 * 44100) } n) 0 =
        some (Modal.calls
            { u := u, up := up, lp := lp, m := m,
              omega0 := 2 * Real.pi * 440 * ((i.val : ℝ) + 1), sigma0 := sigma0,
              k := 1 / (4 * 44100) } (n + 1), out n)) ∧
      Tendsto out atTop (𝓝 0)) ∧
    ∃ (bs : ℕ → Tonerig_modal ℝ) (y : ℕ → ℝ), bs 0 = b ∧
      process Real.pi Real.rpow (bs 0) (scenarioFrame d 1) = some (bs 1, y 0) ∧
      (∀ n, process Real.pi Real.rpow (bs (n + 1)) (scenarioFrame d 0) =
        some (bs (n + 2), y (n + 1))) ∧
      Tendsto y atTop (𝓝 0) := by
  constructor
  · -- the single resonator
    have hk : (0 : ℝ) < 1 / (4 * 44100) := by norm_num
    obtain ⟨h0, h1⟩ := scenario_kw i.val i.isLt
    refine ⟨_, fun n => calls_getNextSample _ (by
      show (1 : ℝ) + 1 / (4 * 44100) * sigma0 ≠ 0
      positivity) n, ?_⟩
    exact calls_out_tendsto _ (mul_pos hk hσ) h0 (by
      show (1 / (4 * 44100 : ℝ)) ^ 2 * (2 * Real.pi * 440 * ((i.val : ℝ) + 1)) ^ 2 < 4
      linarith)
  · -- the bank
    have hdc := dampCtl_eq (scenarioFrame d (1 : ℝ))
    have hgc := dampDecOf_eq
      (constrain
        ((scenarioFrame d (1 : ℝ)).DAMP_PARAM + 2 * (scenarioFrame d (1 : ℝ)).DAMP_INPUT) 0 10)
    have hdpos := scenario_damp_pos d 1 hd
    have hg1 := dampDecOf_ge_one _ _ hgc
    generalize constrain ((scenarioFrame d (1 : ℝ)).DAMP_PARAM
      + 2 * (scenarioFrame d (1 : ℝ)).DAMP_INPUT) 0 10 = damp at hdc hgc hdpos hg1
    generalize max (1 + (damp - 5) / 50) 1 = g at hgc hg1
    have hdc0 : dampCtl (scenarioFrame d (0 : ℝ)) = some damp := hdc
    have hσj : ∀ j : Fin NUM_MODES, 0 < damp * g ^ j.val := fun j =>
      mul_pos hdpos (pow_pos (lt_of_lt_of_le zero_lt_one hg1) _)
    -- the modes after frame 0, and the frames that follow
    let M1 : Fin NUM_MODES → Modal ℝ := fun j => (Modal.specAdvance
      (configured Real.pi 44100 (440 * ((j.val : ℝ) + 1)) (damp * g ^ j.val) (b.modes j)) 1).1
    let bs : ℕ → Tonerig_modal ℝ := fun n => Nat.rec b
      (fun n _ => { modes := fun j => Modal.calls (M1 j) n
                    inharmonicities := b.inharmonicities }) n
    let y : ℕ → ℝ := fun n => Nat.rec
      (5 * ∑ j : Fin NUM_MODES, (Modal.specAdvance
        (configured Real.pi 44100 (440 * ((j.val : ℝ) + 1)) (damp * g ^ j.val)
          (b.modes j)) 1).2)
      (fun n _ => 5 * ∑ j : Fin NUM_MODES, (1 + damp * g ^ j.val) *
        ((Modal.calls (M1 j) (n + 1)).u - (Modal.calls (M1 j) (n + 1)).lp)) n
    have hcfg : ∀ (j : Fin NUM_MODES) (n : ℕ),
        configured Real.pi 44100 (440 * ((j.val : ℝ) + 1)) (damp * g ^ j.val)
          (Modal.calls (M1 j) n) = Modal.calls (M1 j) n := by
      intro j n
      obtain ⟨h1, h2, h3, h4⟩ := calls_params (M1 j) n
      exact configured_idem _ _ _ _ _ (h1.trans rfl) (h3.trans rfl) (h2.trans rfl)
        (h4.trans rfl)
    refine ⟨bs, y, rfl, scenario_process b d 1 damp g hdc hgc, fun n => ?_, ?_⟩
    · rw [scenario_process (bs (n + 1)) d 0 damp g hdc0 hgc]
      have hm : ∀ j : Fin NUM_MODES, (bs (n + 1)).modes j = Modal.calls (M1 j) n := fun _ => rfl
      simp only [hm, hcfg]
      have hout : ∀ j : Fin NUM_MODES, (Modal.specAdvance (Modal.calls (M1 j) n) 0).2 =
          (1 + damp * g ^ j.val) *
            ((Modal.calls (M1 j) (n + 1)).u - (Modal.calls (M1 j) (n + 1)).lp) := by
        intro j
        have e : (Modal.specAdvance (Modal.calls (M1 j) n) 0).2 =
            (1 + (Modal.calls (M1 j) n).sigma0) *
              ((Modal.calls (M1 j) (n + 1)).u - (Modal.calls (M1 j) (n + 1)).lp) := rfl
        rw [e, (calls_params (M1 j) n).2.1]
        rfl
      simp only [hout]
      rfl
    · rw [← tendsto_add_atTop_iff_nat 1]
      have hsum : Tendsto (fun n => ∑ j : Fin NUM_MODES, (1 + damp * g ^ j.val) *
          ((Modal.calls (M1 j) (n + 1)).u - (Modal.calls (M1 j) (n + 1)).lp)) atTop
          (𝓝 (∑ _j : Fin NUM_MODES, (0 : ℝ))) :=
        tendsto_finset_sum _ fun j _ =>
          scenario_mode_tendsto (M1 j) j (damp * g ^ j.val) (hσj j) rfl rfl rfl
      have h5 := hsum.const_mul 5
      rw [Finset.sum_const_zero, mul_zero] at h5
      exact h5

/-- C12, witness: the bank built by the constructor with the damping knob at its default
0.5, and a resonator with damping 2. -/
theorem scenario_decay_witness :
    ∃ (bs : ℕ → Tonerig_modal ℝ) (y : ℕ → ℝ),
      bs 0 = Tonerig_modal.init Real.pi 32767 (fun _ => 12345) ∧
      process Real.pi Real.rpow (bs 0) (scenarioFrame (1 / 2) 1) = some (bs 1, y 0) ∧
      (∀ n, process Real.pi Real.rpow (bs (n + 1)) (scenarioFrame (1 / 2) 0) =
        some (bs (n + 2), y (n + 1))) ∧
      Tendsto y atTop (𝓝 0) :=
  (scenario_decay 0 2 2000 1 0 0 (by norm_num) (1 / 2) (by norm_num)
    (Tonerig_modal.init Real.pi 32767 fun _ => 12345)).2

end DecayClaim

end ModalSynth
